import Mathlib

/-!
Shallow embedding of the ACP bridge (`acp4all-go`): permission rule engine,
unified-diff engine, tool translation, result handling, and small text
utilities, together with theorems checking the specification's claims.

Go strings are modelled as Lean `String`, with the byte-level operations of
the source (`len`, slicing, `strings.HasPrefix`, …) expressed over the
character list `String.data`; for the ASCII data these claims are about,
byte positions and character positions coincide.
-/

namespace AcpBridge

/-- Models Go `strings.Split` with a single-character separator (the source
splits only on `"\n"` and, inside path cleaning, on `"/"`), over character
lists. `strings.Split` of an empty string yields one empty piece. -/
def splitOnChar (sep : Char) : List Char → List (List Char)
  | [] => [[]]
  | c :: rest =>
    if c = sep then [] :: splitOnChar sep rest
    else
      match splitOnChar sep rest with
      | [] => [[c]]
      | l :: ls => (c :: l) :: ls

/-- Models Go `strings.HasPrefix`. -/
def strStartsWith (s pre : String) : Bool := pre.data.isPrefixOf s.data

/-- Models Go `strings.HasSuffix`. -/
def strEndsWith (s suf : String) : Bool := suf.data.isSuffixOf s.data

/-- Models Go slicing `s[n:]` (dropping the first `n` units). -/
def strDrop (s : String) (n : Nat) : String := ⟨s.data.drop n⟩

/-- Models Go slicing `s[:n]` (taking the first `n` units). -/
def strTake (s : String) (n : Nat) : String := ⟨s.data.take n⟩

/-- Models Go `len` on a string. -/
def strLen (s : String) : Nat := s.data.length

/-- Whether the first list occurs as a contiguous infix of the second. -/
def listIsInfixOf (needle : List Char) : List Char → Bool
  | [] => needle.isEmpty
  | h :: t => needle.isPrefixOf (h :: t) || listIsInfixOf needle t

/-- Models Go `strings.Contains`. -/
def strContains (s sub : String) : Bool := listIsInfixOf sub.data s.data

/-- Models Go `strings.ReplaceAll` for a single-character pattern (the only
form the embedded code uses). -/
def strReplaceChar (s : String) (c : Char) (rep : String) : String :=
  ⟨s.data.foldr (fun d acc => if d = c then rep.data ++ acc else d :: acc) []⟩

/-- Models Go `strings.Join` / the rendering of decimal numbers: digit list of
a natural number, most significant first, via an explicit fuel so that the
definition is structurally recursive (fuel `n + 1` always suffices). -/
def natDigitsAux : Nat → Nat → List Char
  | 0, _ => []
  | fuel + 1, n =>
    if n < 10 then [Char.ofNat (48 + n)]
    else natDigitsAux fuel (n / 10) ++ [Char.ofNat (48 + n % 10)]

/-- Models Go `fmt.Sprintf "%d"` for a natural number. -/
def natRepr (n : Nat) : String := ⟨natDigitsAux (n + 1) n⟩

/-- Models Go `fmt.Sprintf "%d"` for an `int`. -/
def intRepr (i : Int) : String :=
  if i < 0 then "-" ++ natRepr i.natAbs else natRepr i.toNat

/-- Models Go `strings.Join` with an arbitrary separator. -/
def strJoin (sep : String) (parts : List String) : String :=
  ⟨List.intercalate sep.data (parts.map String.data)⟩

/-! ## Permission rule engine (`tools.go`) -/

/-- The `mcp__acp__` tool namespace (`ACPToolNamePrefix` in the source). -/
def acpToolNamespace : String := "mcp__acp__"

/-- `PermissionDecision` from the source. -/
inductive PermissionDecision where
  | allow
  | deny
  | ask
deriving DecidableEq, Repr

/-- `PermissionCheckResult` from the source: decision, matched rule text, and
the rule list ("deny"/"allow"/"ask") it came from; `Rule`/`Source` default to
the Go zero value `""`. -/
structure PermissionCheckResult where
  Decision : PermissionDecision
  Rule : String
  Source : String
deriving DecidableEq, Repr

/-- `parsedRule` from the source. -/
structure ParsedRule where
  toolName : String
  argument : String
  isWildcard : Bool
deriving DecidableEq, Repr

/-- `shellOperators` from the source. -/
def shellOperators : List String := ["&&", "||", ";", "|", "$(", "`", "\n"]

/-- `containsShellOperator` from the source. -/
def containsShellOperator (str : String) : Bool :=
  shellOperators.any (fun op => strContains str op)

/-- `fileEditingTools` from the source. -/
def fileEditingTools : List String := [acpToolNamespace ++ "Edit", acpToolNamespace ++ "Write"]

/-- `fileReadingTools` from the source. -/
def fileReadingTools : List String := [acpToolNamespace ++ "Read"]

/-- Values of Go `map[string]any` tool inputs, restricted to the JSON shapes
the embedded code inspects; JSON numbers are modelled as integers (the claims
never exercise fractional values). -/
inductive GoValue where
  | str (s : String)
  | int (n : Int)
  | bool (b : Bool)
  | null
  | arr (xs : List GoValue)
  | obj (fields : List (String × GoValue))

/-- A Go `map[string]any` tool input, as an association list with distinct
keys. -/
def ToolInput : Type := List (String × GoValue)

/-- `getStringArg` from the source. -/
def getStringArg (input : ToolInput) (key : String) : String :=
  match input.lookup key with
  | some (GoValue.str s) => s
  | _ => ""

/-- A word character of Go's regexp `\w` (ASCII letters, digits, underscore). -/
def isWordChar (c : Char) : Bool := c.isAlphanum || c = '_'

/-- Builds a `parsedRule` from a matched tool name and argument, applying the
`:*` wildcard-suffix stripping of `parseRule` in the source. -/
def mkParsedRule (toolName argument : String) : ParsedRule :=
  if argument ≠ "" && strEndsWith argument ":*" then
    ⟨toolName, strTake argument (strLen argument - 2), true⟩
  else
    ⟨toolName, argument, false⟩

/-- `parseRule` from the source. The anchored Go regexp
`(\w+)(\((.+)\))?` (with the inner group optional and non-capturing in the
source) matches either a bare word-character name, or a name followed by a
parenthesized non-empty argument in which `.` never matches a newline; when
the regexp fails, the whole rule string becomes the tool name. -/
def parseRule (rule : String) : ParsedRule :=
  let cs := rule.data
  let name := cs.takeWhile isWordChar
  let rest := cs.dropWhile isWordChar
  if name = [] then ⟨rule, "", false⟩
  else
    match rest with
    | [] => mkParsedRule ⟨name⟩ ""
    | c :: tail =>
      if c = '(' ∧ 2 ≤ tail.length ∧ tail.getLast? = some ')' ∧ '\n' ∉ tail.dropLast then
        mkParsedRule ⟨name⟩ ⟨tail.dropLast⟩
      else ⟨rule, "", false⟩

/-- Models `filepath.Clean` (Go, Unix rules): drop empty and `.` components,
resolve `..` lexically, re-root. The accumulator holds processed components in
reverse. -/
def cleanFold (rooted : Bool) (acc : List String) (c : String) : List String :=
  if c = "" ∨ c = "." then acc
  else if c = ".." then
    match acc with
    | [] => if rooted then [] else [".."]
    | a :: rest => if a = ".." then ".." :: a :: rest else rest
  else c :: acc

/-- Models `filepath.Clean` (Go, Unix rules). -/
def filepathClean (path : String) : String :=
  if path = "" then "."
  else
    let rooted := strStartsWith path "/"
    let comps := (splitOnChar '/' path.data).map (fun l => (⟨l⟩ : String))
    let res := (comps.foldl (cleanFold rooted) []).reverse
    if res = [] then (if rooted then "/" else ".")
    else (if rooted then "/" else "") ++ strJoin "/" res

/-- Models `filepath.Join` (Go, Unix rules) for two elements: non-empty
elements joined with `/`, then cleaned; all-empty input yields `""`. -/
def filepathJoin (a b : String) : String :=
  if a = "" ∧ b = "" then ""
  else if a = "" then filepathClean b
  else if b = "" then filepathClean a
  else filepathClean (a ++ "/" ++ b)

/-- `normalizePath` from the source (Unix branch: no Windows separator
rewriting), with the home directory of `os.UserHomeDir` passed explicitly. -/
def normalizePath (home cwd filePath : String) : String :=
  let fp :=
    if strStartsWith filePath "~/" then filepathJoin home (strDrop filePath 2)
    else if strStartsWith filePath "./" then filepathJoin cwd (strDrop filePath 2)
    else if ¬ strStartsWith filePath "/" then filepathJoin cwd filePath
    else filePath
  filepathClean fp

/-- Models the `gobwas/glob` matcher compiled with separator `/` for the
pattern constructs relevant here: `**` matches any run of characters, `*` any
run without `/`, `?` one non-`/` character, and all remaining characters
literally (the embedded rule patterns contain no character classes or
alternates, and no compile errors can arise for them). -/
def globMatchFuel : Nat → List Char → List Char → Bool
  | 0, _, _ => false
  | _ + 1, [], s => s.isEmpty
  | fuel + 1, c :: ps, s =>
    if c = '*' then
      match ps with
      | '*' :: ps2 => s.tails.any (fun t => globMatchFuel fuel ps2 t)
      | _ =>
        (List.range ((s.takeWhile (fun d => d ≠ '/')).length + 1)).any
          (fun k => globMatchFuel fuel ps (s.drop k))
    else if c = '?' then
      match s with
      | [] => false
      | d :: t => decide (d ≠ '/') && globMatchFuel fuel ps t
    else
      match s with
      | [] => false
      | d :: t => c = d && globMatchFuel fuel ps t

/-- Glob matching with the always-sufficient fuel `|pattern| + 1` (every
recursive call shortens the pattern). -/
def globMatch (p s : List Char) : Bool := globMatchFuel (p.length + 1) p s

/-- `matchesGlob` from the source: normalize both pattern and path, then glob
match. -/
def matchesGlob (home cwd pattern filePath : String) : Bool :=
  globMatch (normalizePath home cwd pattern).data (normalizePath home cwd filePath).data

/-- `toolArgAccessors` from the source: tool name to permission-relevant
argument extractor. -/
def toolArgAccessor (toolName : String) : Option (ToolInput → String) :=
  if toolName = acpToolNamespace ++ "Read" then some (fun input => getStringArg input "file_path")
  else if toolName = acpToolNamespace ++ "Edit" then some (fun input => getStringArg input "file_path")
  else if toolName = acpToolNamespace ++ "Write" then some (fun input => getStringArg input "file_path")
  else if toolName = acpToolNamespace ++ "Bash" then some (fun input => getStringArg input "command")
  else none

/-- `matchesRule` from the source. -/
def matchesRule (home cwd : String) (rule : ParsedRule) (toolName : String)
    (toolInput : ToolInput) : Bool :=
  let ruleAppliesToTool :=
    if rule.toolName = "Bash" then toolName = acpToolNamespace ++ "Bash"
    else if rule.toolName = "Edit" then fileEditingTools.contains toolName
    else if rule.toolName = "Read" then fileReadingTools.contains toolName
    else false
  if ¬ ruleAppliesToTool then false
  else if rule.argument = "" then true
  else
    match toolArgAccessor toolName with
    | none => true
    | some argAccessor =>
      let actualArg := argAccessor toolInput
      if actualArg = "" then false
      else if toolName = acpToolNamespace ++ "Bash" then
        if rule.isWildcard then
          if ¬ strStartsWith actualArg rule.argument then false
          else if containsShellOperator (strDrop actualArg (strLen rule.argument)) then false
          else true
        else actualArg = rule.argument
      else matchesGlob home cwd rule.argument actualArg

/-- `PermissionSettings` rule lists from the source (`allow`, `deny`, `ask`). -/
structure PermissionSettings where
  allow : List String
  deny : List String
  ask : List String
deriving DecidableEq, Repr

/-- `CheckPermission` from the source: only `mcp__acp__`-namespaced tools are
checked; merged permissions may be absent (`nil`); deny rules are scanned
first, then allow, then ask, each by first match; no match defaults to ask. -/
def CheckPermission (home cwd : String) (perms : Option PermissionSettings)
    (toolName : String) (toolInput : ToolInput) : PermissionCheckResult :=
  if ¬ strStartsWith toolName acpToolNamespace then ⟨.ask, "", ""⟩
  else
    match perms with
    | none => ⟨.ask, "", ""⟩
    | some ps =>
      match ps.deny.find? (fun rule => matchesRule home cwd (parseRule rule) toolName toolInput) with
      | some rule => ⟨.deny, rule, "deny"⟩
      | none =>
        match ps.allow.find? (fun rule => matchesRule home cwd (parseRule rule) toolName toolInput) with
        | some rule => ⟨.allow, rule, "allow"⟩
        | none =>
          match ps.ask.find? (fun rule => matchesRule home cwd (parseRule rule) toolName toolInput) with
          | some rule => ⟨.ask, rule, "ask"⟩
          | none => ⟨.ask, "", ""⟩

/-! ## Diff engine (`createUnifiedDiff`, `computeDiffHunks`, `parseUnifiedDiff`) -/

/-- `splitLines` from the source: empty content yields no lines, otherwise
`strings.Split(content, "\n")`. -/
def splitLines (content : String) : List String :=
  if content = "" then []
  else (splitOnChar '\n' content.data).map (fun l => (⟨l⟩ : String))

/-- The LCS-length recurrence of the `lcs` table in `computeDiffHunks`
(`lcs[i][j]` for the suffixes from `i` and `j`), with explicit fuel so the
definition is structural; fuel `|a| + |b|` always suffices. -/
def lcsLenFuel : Nat → List String → List String → Nat
  | 0, _, _ => 0
  | _ + 1, [], _ => 0
  | _ + 1, _ :: _, [] => 0
  | fuel + 1, x :: xs, y :: ys =>
    if x = y then lcsLenFuel fuel xs ys + 1
    else max (lcsLenFuel fuel xs (y :: ys)) (lcsLenFuel fuel (x :: xs) ys)

/-- LCS length of two line lists, as computed by the `lcs` table. -/
def lcsLen (a b : List String) : Nat := lcsLenFuel (a.length + b.length) a b

/-- `diffOp` from `computeDiffHunks`: op tag (`' '`, `'-'`, `'+'`), line text,
and the old/new indices recorded with it. -/
structure DiffOp where
  op : Char
  line : String
  oldN : Nat
  newN : Nat
deriving DecidableEq, Repr

/-- The edit-script walk of `computeDiffHunks` (equal lines advance both
sides; otherwise delete when `lcs[i+1][j] >= lcs[i][j+1]`, else insert;
leftovers become pure deletes then pure inserts), with explicit fuel;
fuel `|a| + |b|` always suffices. -/
def diffOpsFuel : Nat → List String → List String → Nat → Nat → List DiffOp
  | 0, _, _, _, _ => []
  | fuel + 1, x :: xs, y :: ys, i, j =>
    if x = y then ⟨' ', x, i, j⟩ :: diffOpsFuel fuel xs ys (i + 1) (j + 1)
    else if lcsLen xs (y :: ys) ≥ lcsLen (x :: xs) ys then
      ⟨'-', x, i, j⟩ :: diffOpsFuel fuel xs (y :: ys) (i + 1) j
    else ⟨'+', y, i, j⟩ :: diffOpsFuel fuel (x :: xs) ys i (j + 1)
  | fuel + 1, x :: xs, [], i, j => ⟨'-', x, i, j⟩ :: diffOpsFuel fuel xs [] (i + 1) j
  | fuel + 1, [], y :: ys, i, j => ⟨'+', y, i, j⟩ :: diffOpsFuel fuel [] ys i (j + 1)
  | _ + 1, [], [], _, _ => []

/-- The edit script emitted by `computeDiffHunks` before hunk grouping. -/
def diffOps (a b : List String) : List DiffOp := diffOpsFuel (a.length + b.length) a b 0 0

/-- `diffHunk` from the source. -/
structure DiffHunk where
  oldStart : Nat
  oldCount : Nat
  newStart : Nat
  newCount : Nat
  lines : List String
deriving DecidableEq, Repr

/-- The default `DiffOp` used for out-of-range index reads (never reached on
the index ranges the grouping loop uses). -/
def defaultOp : DiffOp := ⟨' ', "", 0, 0⟩

/-- Adding one leading-context line in `computeDiffHunks`: append `" "+line`,
bump both counts, and on the first context line record the hunk start
indices. -/
def addContextLine (h : DiffHunk) (o : DiffOp) : DiffHunk :=
  let h := { h with lines := h.lines ++ [" " ++ o.line],
                    oldCount := h.oldCount + 1, newCount := h.newCount + 1 }
  if h.oldCount = 1 ∧ h.newCount = 1 then { h with oldStart := o.oldN, newStart := o.newN }
  else h

/-- Adding one mid- or trailing-context line in `computeDiffHunks`: append
`" "+line` and bump both counts (no start recording there). -/
def addTrailContext (h : DiffHunk) (o : DiffOp) : DiffHunk :=
  { h with lines := h.lines ++ [" " ++ o.line],
           oldCount := h.oldCount + 1, newCount := h.newCount + 1 }

/-- Adding one change line in `computeDiffHunks`: append the tagged line and
bump the matching count. -/
def addChangeLine (h : DiffHunk) (o : DiffOp) : DiffHunk :=
  let h := { h with lines := h.lines ++ [(⟨[o.op]⟩ : String) ++ o.line] }
  if o.op = '-' then { h with oldCount := h.oldCount + 1 }
  else { h with newCount := h.newCount + 1 }

/-- Opening a hunk at change index `idx` in `computeDiffHunks`: collect up to
`contextLines = 3` space ops before `idx` as leading context; when no context
was collected, the hunk starts at the change op's indices. -/
def newHunkAt (ops : List DiffOp) (idx : Nat) (op : DiffOp) : DiffHunk :=
  let start := idx - 3
  let base := (List.range' start (idx - start)).foldl
    (fun h ci =>
      let o := ops.getD ci defaultOp
      if o.op = ' ' then addContextLine h o else h)
    ⟨0, 0, 0, 0, []⟩
  if base.oldCount = 0 ∧ base.newCount = 0 then
    { base with oldStart := op.oldN, newStart := op.newN }
  else base

/-- The `nextChange` lookahead of `computeDiffHunks`: is there a non-space op
strictly between `idx` and `min (idx + 2*3 + 1) |ops|`? -/
def hasChangeWithin (ops : List DiffOp) (idx : Nat) : Bool :=
  let limit := min (idx + 2 * 3 + 1) ops.length
  (List.range' (idx + 1) (limit - (idx + 1))).any
    (fun ni => (ops.getD ni defaultOp).op ≠ ' ')

/-- Closing a hunk in `computeDiffHunks`: append up to `contextLines = 3`
trailing space ops from `idx` through `min (idx+3) (|ops|-1)` inclusive. -/
def closeHunk (ops : List DiffOp) (idx : Nat) (h : DiffHunk) : DiffHunk :=
  let trailEnd := min (idx + 3) (ops.length - 1)
  (List.range' idx (trailEnd + 1 - idx)).foldl
    (fun h ci =>
      let o := ops.getD ci defaultOp
      if o.op = ' ' then addTrailContext h o else h)
    h

/-- The hunk-grouping loop of `computeDiffHunks`, iterating `idx` over `ops`
with the current open hunk as state; called with fuel `|ops|` so the fuel
runs out exactly when the loop ends, at which point an open hunk is flushed. -/
def groupHunksGo (ops : List DiffOp) : Nat → Nat → Option DiffHunk → List DiffHunk → List DiffHunk
  | 0, _, cur, acc => acc ++ cur.toList
  | fuel + 1, idx, cur, acc =>
    let op := ops.getD idx defaultOp
    if op.op ≠ ' ' then
      let h := match cur with
        | none => newHunkAt ops idx op
        | some h => h
      groupHunksGo ops fuel (idx + 1) (some (addChangeLine h op)) acc
    else
      match cur with
      | none => groupHunksGo ops fuel (idx + 1) none acc
      | some h =>
        if hasChangeWithin ops idx then
          groupHunksGo ops fuel (idx + 1) (some (addTrailContext h op)) acc
        else
          groupHunksGo ops fuel (idx + 1) none (acc ++ [closeHunk ops idx h])

/-- `computeDiffHunks` from the source. -/
def computeDiffHunks (oldLines newLines : List String) : List DiffHunk :=
  let ops := diffOps oldLines newLines
  groupHunksGo ops ops.length 0 none []

/-- `createUnifiedDiff` from the source: empty hunks yield `""`; otherwise
`---`/`+++` header lines followed by each hunk's `@@` header (1-based starts)
and its lines, each newline-terminated. -/
def createUnifiedDiff (filename oldContent newContent : String) : String :=
  let oldLines := splitLines oldContent
  let newLines := splitLines newContent
  let hunks := computeDiffHunks oldLines newLines
  if hunks = [] then ""
  else
    "--- a/" ++ filename ++ "\n" ++ "+++ b/" ++ filename ++ "\n" ++
      String.join (hunks.map (fun h =>
        "@@ -" ++ natRepr (h.oldStart + 1) ++ "," ++ natRepr h.oldCount ++
          " +" ++ natRepr (h.newStart + 1) ++ "," ++ natRepr h.newCount ++ " @@\n" ++
          String.join (h.lines.map (fun line => line ++ "\n"))))

/-- `toolsDiffHunk` from the source (parsed form: new-file start line and raw
tagged lines). -/
structure ToolsDiffHunk where
  newStart : Nat
  lines : List String
deriving DecidableEq, Repr

/-- `toolsDiffPatch` from the source. -/
structure ToolsDiffPatch where
  oldFileName : String
  newFileName : String
  hunks : List ToolsDiffHunk
deriving DecidableEq, Repr

/-- The leading-digits parse at the end of `parseHunkHeader` (stops at the
first non-digit; result used only when non-zero). -/
def leadingDigitsVal (cs : List Char) : Nat :=
  (cs.takeWhile Char.isDigit).foldl (fun n c => n * 10 + (c.toNat - 48)) 0

/-- `parseHunkHeader` from the source: take the text after the first `+`, cut
at the first `,` then at the first space, parse leading digits; missing `+`
or a zero value default to 1. -/
def parseHunkHeader (line : String) : Nat :=
  match line.data.dropWhile (fun c => c ≠ '+') with
  | [] => 1
  | _ :: afterPlus =>
    let numStr := (afterPlus.takeWhile (fun c => c ≠ ',')).takeWhile (fun c => c ≠ ' ')
    let n := leadingDigitsVal numStr
    if n = 0 then 1 else n

/-- Loop state of `parseUnifiedDiff`: finished patches, the open patch, the
open hunk. -/
structure ParseDiffState where
  patches : List ToolsDiffPatch
  current : Option ToolsDiffPatch
  currentHunk : Option ToolsDiffHunk

/-- One line step of `parseUnifiedDiff`. -/
def parseDiffStep (st : ParseDiffState) (line : String) : ParseDiffState :=
  if strStartsWith line "--- " then
    let patches :=
      match st.current with
      | none => st.patches
      | some cur =>
        match st.currentHunk with
        | none => st.patches ++ [cur]
        | some h => st.patches ++ [{ cur with hunks := cur.hunks ++ [h] }]
    { patches := patches, current := some ⟨strDrop line 4, "", []⟩, currentHunk := none }
  else if strStartsWith line "+++ " ∧ st.current.isSome then
    { st with current := st.current.map (fun cur => { cur with newFileName := strDrop line 4 }) }
  else if strStartsWith line "@@" ∧ st.current.isSome then
    let current :=
      match st.currentHunk with
      | none => st.current
      | some h => st.current.map (fun cur => { cur with hunks := cur.hunks ++ [h] })
    { st with current := current, currentHunk := some ⟨parseHunkHeader line, []⟩ }
  else
    match st.currentHunk with
    | none => st
    | some h =>
      if strStartsWith line "+" || strStartsWith line "-" || strStartsWith line " " then
        { st with currentHunk := some { h with lines := h.lines ++ [line] } }
      else st

/-- `parseUnifiedDiff` from the source: fold the line steps over the text
split on newlines, then flush the open hunk and patch. -/
def parseUnifiedDiff (text : String) : List ToolsDiffPatch :=
  let lines := (splitOnChar '\n' text.data).map (fun l => (⟨l⟩ : String))
  let st := lines.foldl parseDiffStep ⟨[], none, none⟩
  match st.current with
  | none => st.patches
  | some cur =>
    match st.currentHunk with
    | none => st.patches ++ [cur]
    | some h => st.patches ++ [{ cur with hunks := cur.hunks ++ [h] }]

/-- The per-hunk old-side extraction of the edit-result path in the source
(`toolUpdateFromToolResult`, `mcp__acp__Edit` case): `-` lines and non-empty
context lines contribute `line[1:]`. -/
def hunkOldLines (lines : List String) : List String :=
  lines.filterMap (fun line =>
    if strStartsWith line "-" then some (strDrop line 1)
    else if strStartsWith line "+" then none
    else if 0 < strLen line then some (strDrop line 1)
    else none)

/-- The per-hunk new-side extraction of the edit-result path in the source:
`+` lines and non-empty context lines contribute `line[1:]`. -/
def hunkNewLines (lines : List String) : List String :=
  lines.filterMap (fun line =>
    if strStartsWith line "-" then none
    else if strStartsWith line "+" then some (strDrop line 1)
    else if 0 < strLen line then some (strDrop line 1)
    else none)

/-! ## Result handling (`handleResult`) -/

/-- The stop reasons `handleResult` can produce. -/
inductive StopReason where
  | endTurn
  | maxTurnRequests
deriving DecidableEq, Repr

/-- Outcome of `handleResult`: a prompt response with a stop reason, or one of
the two error returns (`acp.NewAuthRequired`, `acp.NewInternalError` carrying
its error text). -/
inductive TurnOutcome where
  | response (stopReason : StopReason)
  | authRequired
  | internalError (errText : String)
deriving DecidableEq, Repr

/-- The fields of `SDKResponse` that `handleResult` reads. -/
structure SDKResponse where
  subtype : String
  result : String
  isError : Bool
  errors : List String
deriving DecidableEq, Repr

/-- The `errMsg` computation shared by the error subtypes of `handleResult`:
joined error list, or the subtype when the join is empty. -/
def joinedErrors (resp : SDKResponse) : String :=
  let errMsg := strJoin ", " resp.errors
  if errMsg = "" then resp.subtype else errMsg

/-- `handleResult` from the source. -/
def handleResult (resp : SDKResponse) : TurnOutcome :=
  if resp.subtype = "success" then
    if strContains resp.result "Please run /login" then .authRequired
    else if resp.isError then .internalError resp.result
    else .response .endTurn
  else if resp.subtype = "error_max_turns" ∨ resp.subtype = "error_max_budget_usd" ∨
      resp.subtype = "error_max_structured_output_retries" then
    if resp.isError then .internalError (joinedErrors resp)
    else .response .maxTurnRequests
  else if resp.subtype = "error_during_execution" then
    if resp.isError then .internalError (joinedErrors resp)
    else .response .endTurn
  else .response .endTurn

/-! ## Byte-limited line extraction (`extractLinesWithByteLimit`) -/

/-- `ExtractLinesResult` from the source. -/
structure ExtractLinesResult where
  Content : String
  WasLimited : Bool
  LinesRead : Nat
deriving DecidableEq, Repr

/-- The read loop of `extractLinesWithByteLimit`, expressed over the
newline-split segments of the content (the last segment is the final line
without a trailing newline). State is `(linesSeen, contentLength)`; the
result is `(contentLength, linesSeen, wasLimited)`. A complete line costs its
length plus one for the newline and is refused once `linesSeen > 0` and the
new length exceeds the limit; the final segment is refused once
`linesSeen > 0` and the total length exceeds the limit. -/
def extractLoop (maxLen : Nat) : List (List Char) → Nat → Nat → Nat × Nat × Bool
  | [last], seen, clen =>
    if 0 < seen ∧ maxLen < clen + last.length then (clen, seen, true)
    else (clen + last.length, seen + 1, false)
  | l :: rest, seen, clen =>
    let newLen := clen + l.length + 1
    if 0 < seen ∧ maxLen < newLen then (clen, seen, true)
    else extractLoop maxLen rest (seen + 1) newLen
  | [], seen, clen => (clen, seen, false)

/-- `extractLinesWithByteLimit` from the source. -/
def extractLinesWithByteLimit (fullContent : String) (maxContentLength : Nat) :
    ExtractLinesResult :=
  if fullContent = "" then ⟨"", false, 1⟩
  else
    let r := extractLoop maxContentLength (splitOnChar '\n' fullContent.data) 0 0
    ⟨⟨fullContent.data.take r.1⟩, r.2.2, r.2.1⟩

/-- Cumulative line boundaries of a content's data: the `k`-th entry is the
length of the prefix consisting of the first `k+1` lines (each complete line
counted with its newline; the final boundary is the whole length). Used to
state what `extractLinesWithByteLimit` returns. -/
def lineStopsAux : List (List Char) → Nat → List Nat
  | [last], clen => [clen + last.length]
  | l :: rest, clen => (clen + l.length + 1) :: lineStopsAux rest (clen + l.length + 1)
  | [], _ => []

/-- Line boundaries of a content string. -/
def lineStops (s : List Char) : List Nat := lineStopsAux (splitOnChar '\n' s) 0

/-! ## Markdown fencing (`markdownEscape`) -/

/-- The match lengths of Go's "(?m)^` ` `+" regexp on a text: for each line,
the length of its maximal leading backtick run, kept when at least 3. -/
def fenceRuns (text : String) : List Nat :=
  ((splitOnChar '\n' text.data).map (fun l => (l.takeWhile (fun c => c = '`')).length)).filter
    (fun n => 3 ≤ n)

/-- The fence-growing fold of `markdownEscape`: starting from 3 backticks,
each match of length at least the current fence extends the fence to one more
than the match. -/
def fenceLen (text : String) : Nat :=
  (fenceRuns text).foldl (fun f m => if f ≤ m then m + 1 else f) 3

/-- `markdownEscape` from the source: wrap the text in a backtick fence one
longer than any leading backtick run of its lines, adding a newline before
the closing fence when the text lacks one. -/
def markdownEscape (text : String) : String :=
  let fence : String := ⟨List.replicate (fenceLen text) '`'⟩
  let trailing := if strEndsWith text "\n" then "" else "\n"
  fence ++ "\n" ++ text ++ trailing ++ fence

/-! ## Tool translation (`toolInfoFromToolUse`) -/

/-- The ACP tool kinds used by the start mapping. -/
inductive ToolKind where
  | read
  | edit
  | execute
  | search
  | fetch
  | think
  | switchMode
  | other
deriving DecidableEq, Repr

/-- An ACP tool-call content entry as produced by the start mapping:
`acp.ToolContent(acp.TextBlock(s))` or `acp.ToolDiffContent(path, new[, old])`. -/
inductive ToolCallContent where
  | textContent (text : String)
  | diffContent (path newText : String) (oldText : Option String)
deriving DecidableEq, Repr

/-- `acp.ToolCallLocation`: path and optional line. -/
structure ToolCallLocation where
  Path : String
  Line : Option Int
deriving DecidableEq, Repr

/-- `ToolInfo` from the source. -/
structure ToolInfo where
  Title : String
  Kind : ToolKind
  Content : List ToolCallContent
  Locations : List ToolCallLocation
deriving DecidableEq, Repr

/-- `inputStr` from the source (same extraction as `getStringArg`). -/
def inputStr (input : ToolInput) (key : String) : String :=
  match input.lookup key with
  | some (GoValue.str s) => s
  | _ => ""

/-- `inputInt` from the source, returning the value-and-presence pair (JSON
numbers are modelled as integers). -/
def inputInt (input : ToolInput) (key : String) : Int × Bool :=
  match input.lookup key with
  | some (GoValue.int n) => (n, true)
  | _ => (0, false)

/-- `inputBool` from the source. -/
def inputBool (input : ToolInput) (key : String) : Bool :=
  match input.lookup key with
  | some (GoValue.bool b) => b
  | _ => false

/-- `inputStrSlice` from the source: the string elements of an array value,
or an empty list (only emptiness is ever observed). -/
def inputStrSlice (input : ToolInput) (key : String) : List String :=
  match input.lookup key with
  | some (GoValue.arr xs) =>
    xs.filterMap (fun v =>
      match v with
      | GoValue.str s => some s
      | _ => none)
  | _ => []

/-- Lowercase hexadecimal digit. -/
def hexDigitChar (n : Nat) : Char :=
  if n < 10 then Char.ofNat (48 + n) else Char.ofNat (87 + n)

/-- Models the string escaping of Go `encoding/json` (with its default HTML
escaping) for the character ranges exercised here. -/
def jsonEscapeChar (c : Char) : List Char :=
  if c = '"' then ['\\', '"']
  else if c = '\\' then ['\\', '\\']
  else if c = '\n' then ['\\', 'n']
  else if c = '\r' then ['\\', 'r']
  else if c = '\t' then ['\\', 't']
  else if c = '<' then "\\u003c".data
  else if c = '>' then "\\u003e".data
  else if c = '&' then "\\u0026".data
  else if c.toNat < 32 then "\\u00".data ++ [hexDigitChar (c.toNat / 16), hexDigitChar (c.toNat % 16)]
  else [c]

/-- A JSON string literal, per Go `encoding/json`. -/
def jsonQuote (s : String) : String :=
  "\"" ++ (⟨s.data.foldr (fun c acc => jsonEscapeChar c ++ acc) []⟩ : String) ++ "\""

mutual

/-- Models Go `json.MarshalIndent(v, "", "  ")` for the modelled value
shapes; `ind` is the indentation of the enclosing value. The `ToolInput`
association list stands in for the Go map with its keys in marshal order (Go
maps are unordered and `encoding/json` emits their keys sorted). -/
def goJsonValue (ind : String) : GoValue → String
  | .str s => jsonQuote s
  | .int n => intRepr n
  | .bool b => if b then "true" else "false"
  | .null => "null"
  | .arr [] => "[]"
  | .arr (x :: xs) =>
    "[\n" ++ strJoin ",\n" (goJsonItems (ind ++ "  ") (x :: xs)) ++ "\n" ++ ind ++ "]"
  | .obj [] => "\x7b\x7d"
  | .obj (f :: fs) =>
    "\x7b\n" ++ strJoin ",\n" (goJsonFields (ind ++ "  ") (f :: fs)) ++ "\n" ++ ind ++ "\x7d"

/-- Indented renderings of array elements. -/
def goJsonItems (ind : String) : List GoValue → List String
  | [] => []
  | v :: vs => (ind ++ goJsonValue ind v) :: goJsonItems ind vs

/-- Indented renderings of object fields. -/
def goJsonFields (ind : String) : List (String × GoValue) → List String
  | [] => []
  | f :: fs => (ind ++ jsonQuote f.1 ++ ": " ++ goJsonValue ind f.2) :: goJsonFields ind fs

end

/-- Models `json.MarshalIndent(input, "", "  ")` on a tool input (never an
error for the modelled values). -/
def goJsonMarshalIndent (input : ToolInput) : String := goJsonValue "" (GoValue.obj input)

/-- The tool names carrying a dedicated case in `toolInfoFromToolUse`. -/
def handledToolNames : List String :=
  ["Task", "NotebookRead", "NotebookEdit",
   "Bash", acpToolNamespace ++ "Bash",
   "BashOutput", acpToolNamespace ++ "BashOutput",
   "KillShell", acpToolNamespace ++ "KillShell",
   acpToolNamespace ++ "Read", "Read", "LS",
   acpToolNamespace ++ "Edit", "Edit",
   acpToolNamespace ++ "Write", "Write",
   "Glob", "Grep", "WebFetch", "WebSearch", "TodoWrite", "ExitPlanMode", "Other"]

/-- The `mcp__acp__Read` line-range rendering of `toolInfoFromToolUse`. -/
def readLineRange (input : ToolInput) : String :=
  let limit := inputInt input "limit"
  let offset := inputInt input "offset"
  if limit.2 ∧ 0 < limit.1 then
    let start : Int := if offset.2 then offset.1 + 1 else 1
    " (" ++ intRepr start ++ " - " ++ intRepr (start + limit.1 - 1) ++ ")"
  else if offset.2 ∧ 0 < offset.1 then
    " (from line " ++ intRepr (offset.1 + 1) ++ ")"
  else ""

/-- The `Grep` invocation-string rendering of `toolInfoFromToolUse`: each flag
appended only when present, in the source's fixed order. -/
def grepLabel (input : ToolInput) : String :=
  let label := "grep"
  let label := if inputBool input "-i" then label ++ " -i" else label
  let label := if inputBool input "-n" then label ++ " -n" else label
  let a := inputInt input "-A"
  let label := if a.2 then label ++ " -A " ++ intRepr a.1 else label
  let b := inputInt input "-B"
  let label := if b.2 then label ++ " -B " ++ intRepr b.1 else label
  let c := inputInt input "-C"
  let label := if c.2 then label ++ " -C " ++ intRepr c.1 else label
  let om := inputStr input "output_mode"
  let label :=
    if om = "" then label
    else if om = "FilesWithMatches" then label ++ " -l"
    else if om = "Count" then label ++ " -c"
    else label
  let hl := inputInt input "head_limit"
  let label := if hl.2 then label ++ " | head -" ++ intRepr hl.1 else label
  let g := inputStr input "glob"
  let label := if g ≠ "" then label ++ " --include=\"" ++ g ++ "\"" else label
  let t := inputStr input "type"
  let label := if t ≠ "" then label ++ " --type=" ++ t else label
  let label := if inputBool input "multiline" then label ++ " -P" else label
  let pat := inputStr input "pattern"
  let label := if pat ≠ "" then label ++ " \"" ++ pat ++ "\"" else label
  let p := inputStr input "path"
  if p ≠ "" then label ++ " " ++ p else label

/-- `toolInfoFromToolUse` from the source: the per-tool-name start mapping. -/
def toolInfoFromToolUse (name : String) (input : ToolInput) : ToolInfo :=
  if name = "Task" then
    let title := if inputStr input "description" ≠ "" then inputStr input "description" else "Task"
    let content :=
      if inputStr input "prompt" ≠ "" then [ToolCallContent.textContent (inputStr input "prompt")]
      else []
    ⟨title, .think, content, []⟩
  else if name = "NotebookRead" then
    let path := inputStr input "notebook_path"
    let title := if path ≠ "" then "Read Notebook " ++ path else "Read Notebook"
    let locations := if path ≠ "" then [ToolCallLocation.mk path none] else []
    ⟨title, .read, [], locations⟩
  else if name = "NotebookEdit" then
    let path := inputStr input "notebook_path"
    let title := if path ≠ "" then "Edit Notebook " ++ path else "Edit Notebook"
    let content :=
      if inputStr input "new_source" ≠ "" then
        [ToolCallContent.textContent (inputStr input "new_source")]
      else []
    let locations := if path ≠ "" then [ToolCallLocation.mk path none] else []
    ⟨title, .edit, content, locations⟩
  else if name = "Bash" ∨ name = acpToolNamespace ++ "Bash" then
    let cmd := inputStr input "command"
    let title := if cmd ≠ "" then "`" ++ strReplaceChar cmd '`' "\\`" ++ "`" else "Terminal"
    let content :=
      if inputStr input "description" ≠ "" then
        [ToolCallContent.textContent (inputStr input "description")]
      else []
    ⟨title, .execute, content, []⟩
  else if name = "BashOutput" ∨ name = acpToolNamespace ++ "BashOutput" then
    ⟨"Tail Logs", .execute, [], []⟩
  else if name = "KillShell" ∨ name = acpToolNamespace ++ "KillShell" then
    ⟨"Kill Process", .execute, [], []⟩
  else if name = acpToolNamespace ++ "Read" then
    let filePath := inputStr input "file_path"
    let title := (if filePath ≠ "" then "Read " ++ filePath else "Read " ++ "File") ++ readLineRange input
    let offset := inputInt input "offset"
    let locations :=
      if filePath ≠ "" then
        [ToolCallLocation.mk filePath (some (if offset.2 then offset.1 else 0))]
      else []
    ⟨title, .read, [], locations⟩
  else if name = "Read" then
    let filePath := inputStr input "file_path"
    let offset := inputInt input "offset"
    let locations :=
      if filePath ≠ "" then
        [ToolCallLocation.mk filePath (some (if offset.2 then offset.1 else 0))]
      else []
    ⟨"Read File", .read, [], locations⟩
  else if name = "LS" then
    let path := inputStr input "path"
    let title := "List the " ++ (if path ≠ "" then "`" ++ path ++ "`" else "current") ++
      " directory's contents"
    ⟨title, .search, [], []⟩
  else if name = acpToolNamespace ++ "Edit" ∨ name = "Edit" then
    let filePath := inputStr input "file_path"
    let title := if filePath ≠ "" then "Edit `" ++ filePath ++ "`" else "Edit"
    let content :=
      if filePath ≠ "" then
        if (input.lookup "old_string").isSome then
          [ToolCallContent.diffContent filePath (inputStr input "new_string")
            (some (inputStr input "old_string"))]
        else [ToolCallContent.diffContent filePath (inputStr input "new_string") none]
      else []
    let locations := if filePath ≠ "" then [ToolCallLocation.mk filePath none] else []
    ⟨title, .edit, content, locations⟩
  else if name = acpToolNamespace ++ "Write" then
    let filePath := inputStr input "file_path"
    let fileContent := inputStr input "content"
    let title := if filePath ≠ "" then "Write " ++ filePath else "Write"
    let content :=
      if filePath ≠ "" then [ToolCallContent.diffContent filePath fileContent none]
      else if fileContent ≠ "" then [ToolCallContent.textContent fileContent]
      else []
    let locations := if filePath ≠ "" then [ToolCallLocation.mk filePath none] else []
    ⟨title, .edit, content, locations⟩
  else if name = "Write" then
    let filePath := inputStr input "file_path"
    let fileContent := inputStr input "content"
    let title := if filePath ≠ "" then "Write " ++ filePath else "Write"
    let content :=
      if filePath ≠ "" then [ToolCallContent.diffContent filePath fileContent none] else []
    let locations := if filePath ≠ "" then [ToolCallLocation.mk filePath none] else []
    ⟨title, .edit, content, locations⟩
  else if name = "Glob" then
    let label := "Find" ++
      (if inputStr input "path" ≠ "" then " `" ++ inputStr input "path" ++ "`" else "") ++
      (if inputStr input "pattern" ≠ "" then " `" ++ inputStr input "pattern" ++ "`" else "")
    let locations :=
      if inputStr input "path" ≠ "" then [ToolCallLocation.mk (inputStr input "path") none]
      else []
    ⟨label, .search, [], locations⟩
  else if name = "Grep" then
    ⟨grepLabel input, .search, [], []⟩
  else if name = "WebFetch" then
    let url := inputStr input "url"
    let title := if url ≠ "" then "Fetch " ++ url else "Fetch"
    let content :=
      if inputStr input "prompt" ≠ "" then [ToolCallContent.textContent (inputStr input "prompt")]
      else []
    ⟨title, .fetch, content, []⟩
  else if name = "WebSearch" then
    let label := "\"" ++ inputStr input "query" ++ "\""
    let allowed := inputStrSlice input "allowed_domains"
    let label :=
      if allowed ≠ [] then label ++ " (allowed: " ++ strJoin ", " allowed ++ ")" else label
    let blocked := inputStrSlice input "blocked_domains"
    let label :=
      if blocked ≠ [] then label ++ " (blocked: " ++ strJoin ", " blocked ++ ")" else label
    ⟨label, .fetch, [], []⟩
  else if name = "TodoWrite" then
    let title :=
      match input.lookup "todos" with
      | some (GoValue.arr todos) =>
        let parts := todos.filterMap (fun t =>
          match t with
          | GoValue.obj m => if inputStr m "content" ≠ "" then some (inputStr m "content") else none
          | _ => none)
        if parts ≠ [] then "Update TODOs: " ++ strJoin ", " parts else "Update TODOs"
      | _ => "Update TODOs"
    ⟨title, .think, [], []⟩
  else if name = "ExitPlanMode" then
    let content :=
      if inputStr input "plan" ≠ "" then [ToolCallContent.textContent (inputStr input "plan")]
      else []
    ⟨"Ready to code?", .switchMode, content, []⟩
  else if name = "Other" then
    let output := goJsonMarshalIndent input
    let title := if name = "" then "Unknown Tool" else name
    ⟨title, .other, [ToolCallContent.textContent ("```json\n" ++ output ++ "```")], []⟩
  else
    let title := if name = "" then "Unknown Tool" else name
    ⟨title, .other, [], []⟩

example : parseRule "Read" = ⟨"Read", "", false⟩ := by decide
example : parseRule "Read(./.env)" = ⟨"Read", "./.env", false⟩ := by decide
example : parseRule "Bash(npm run:*)" = ⟨"Bash", "npm run", true⟩ := by decide
example : parseRule "Bash(:*)" = ⟨"Bash", "", true⟩ := by decide
example : parseRule "Read()" = ⟨"Read()", "", false⟩ := by decide
example : filepathClean "/w/../x//y/./" = "/x/y" := by decide
example : normalizePath "/h" "/w" "./.env" = "/w/.env" := by decide
example : normalizePath "/h" "/w" ".env" = "/w/.env" := by decide
example : normalizePath "/h" "/w" "~/a" = "/h/a" := by decide
example : createUnifiedDiff "f" "a\nb" "a\nb" = "" := by decide
example :
    computeDiffHunks (splitLines "line1\nline3") (splitLines "line1\nline2\nline3") =
      [⟨0, 2, 0, 3, [" line1", "+line2", " line3"]⟩] := by decide
example :
    createUnifiedDiff "f" "line1\nline3" "line1\nline2\nline3" =
      "--- a/f\n+++ b/f\n@@ -1,2 +1,3 @@\n line1\n+line2\n line3\n" := by decide
example :
    parseUnifiedDiff "--- a/f\n+++ b/f\n@@ -1,2 +1,3 @@\n line1\n+line2\n line3\n" =
      [⟨"a/f", "b/f", [⟨1, [" line1", "+line2", " line3"]⟩]⟩] := by decide
example :
    parseUnifiedDiff (createUnifiedDiff "file" "1\n2\n3\n4\n5" "1\n2\n3\n4\n5\n6") =
      [⟨"a/file", "b/file", [⟨3, [" 3", " 4", " 5", "+6"]⟩]⟩] := by decide
example : parseUnifiedDiff "" = [] := by decide
example : extractLinesWithByteLimit "" 100 = ⟨"", false, 1⟩ := by decide
example : extractLinesWithByteLimit "ab\ncd\nef" 5 = ⟨"ab\n", true, 1⟩ := by decide
example : extractLinesWithByteLimit "ab\ncd\nef" 6 = ⟨"ab\ncd\n", true, 2⟩ := by decide
example : extractLinesWithByteLimit "ab\ncd\nef" 100 = ⟨"ab\ncd\nef", false, 3⟩ := by decide
example : extractLinesWithByteLimit "abcdefgh" 3 = ⟨"abcdefgh", false, 1⟩ := by decide
example : extractLinesWithByteLimit "ab\n" 2 = ⟨"ab\n", true, 1⟩ := by decide
example : lineStops "ab\ncd\nef".data = [3, 6, 8] := by decide
example : handleResult ⟨"error_during_execution", "", true, ["boom"]⟩ =
    .internalError "boom" := by decide
example : handleResult ⟨"weird", "", true, ["boom"]⟩ = .response .endTurn := by decide
example : markdownEscape "x\n```\ny" = "````\nx\n```\ny\n````" := by decide
example : markdownEscape "a\n" = "```\na\n```" := by decide
example : toolInfoFromToolUse "SomeUnknownTool" [("x", GoValue.str "y")] =
    ⟨"SomeUnknownTool", .other, [], []⟩ := by decide
example : toolInfoFromToolUse "" [] = ⟨"Unknown Tool", .other, [], []⟩ := by decide
example : toolInfoFromToolUse "LS" [("path", GoValue.str "/tmp")] =
    ⟨"List the `/tmp` directory's contents", .search, [], []⟩ := by decide

/-! ## Shared helper lemmas -/

theorem strData_append (a b : String) : (a ++ b).data = a.data ++ b.data := rfl

theorem str_eq_empty_of_data_nil {s : String} (h : s.data = []) : s = "" := by
  cases s
  subst h
  rfl

theorem strStartsWith_empty_left (pre : String) (h : pre ≠ "") :
    strStartsWith "" pre = false := by
  unfold strStartsWith
  cases hd : pre.data with
  | nil => exact absurd (str_eq_empty_of_data_nil hd) h
  | cons c t => simp [List.isPrefixOf]

/-! ## C6: non-namespaced tool names always yield ask -/

/-- C6: for every tool name that does not start with the `mcp__acp__`
namespace, `CheckPermission` returns the default ask decision (empty rule and
source) for every rule configuration and tool input. -/
theorem CheckPermission_non_namespaced_ask (home cwd : String)
    (perms : Option PermissionSettings) (toolName : String) (toolInput : ToolInput)
    (h : strStartsWith toolName acpToolNamespace = false) :
    CheckPermission home cwd perms toolName toolInput = ⟨.ask, "", ""⟩ := by
  unfold CheckPermission
  simp [h]

/-- Witness for C6: the un-namespaced name "Read" yields ask even with deny,
allow and ask rules configured that would match a namespaced read. -/
theorem CheckPermission_non_namespaced_ask_witness :
    CheckPermission "/h" "/w" (some ⟨["Read"], ["Read"], ["Read"]⟩) "Read"
      [("file_path", GoValue.str "/w/.env")] = ⟨.ask, "", ""⟩ :=
  CheckPermission_non_namespaced_ask "/h" "/w"
    (some ⟨["Read"], ["Read"], ["Read"]⟩) "Read" [("file_path", GoValue.str "/w/.env")]
    (by decide)

/-! ## C9: empty input to the byte-limited line extraction -/

/-- C9: on the empty content string, `extractLinesWithByteLimit` returns empty
content, `WasLimited = false`, and `LinesRead = 1` for every byte limit. -/
theorem extractLinesWithByteLimit_empty_input (maxContentLength : Nat) :
    extractLinesWithByteLimit "" maxContentLength = ⟨"", false, 1⟩ := rfl

/-! ## C4: result-event subtype handling -/

/-- Counterexample for C4: the subtype `error_during_execution` is none of the
subtypes the claim enumerates, yet with the error flag set the turn fails
with an internal error instead of defaulting to the end-turn stop reason. -/
theorem handleResult_error_during_execution_cex :
    handleResult ⟨"error_during_execution", "", true, ["boom"]⟩ = .internalError "boom" ∧
    ("error_during_execution" : String) ≠ "success" ∧
    ("error_during_execution" : String) ≠ "error_max_turns" ∧
    ("error_during_execution" : String) ≠ "error_max_budget_usd" ∧
    ("error_during_execution" : String) ≠ "error_max_structured_output_retries" ∧
    handleResult ⟨"error_during_execution", "", true, ["boom"]⟩ ≠ .response .endTurn := by
  decide

/-- C4 (amended): `handleResult` maps subtype `success` to end-turn unless the
result text signals the login requirement (auth-required) or the error flag
is set (internal error carrying the result text); the three max subtypes map
to max-turn-requests unless the error flag is set, in which case they fail
with an internal error carrying the joined error messages (the subtype when
the join is empty); subtype `error_during_execution` likewise yields an
internal error when flagged and end-turn otherwise; every remaining subtype
yields end-turn. -/
theorem handleResult_subtype_cases (resp : SDKResponse) :
    (resp.subtype = "success" →
      (strContains resp.result "Please run /login" = true →
        handleResult resp = .authRequired) ∧
      (strContains resp.result "Please run /login" = false → resp.isError = true →
        handleResult resp = .internalError resp.result) ∧
      (strContains resp.result "Please run /login" = false → resp.isError = false →
        handleResult resp = .response .endTurn)) ∧
    ((resp.subtype = "error_max_turns" ∨ resp.subtype = "error_max_budget_usd" ∨
        resp.subtype = "error_max_structured_output_retries") →
      (resp.isError = true → handleResult resp = .internalError (joinedErrors resp)) ∧
      (resp.isError = false → handleResult resp = .response .maxTurnRequests)) ∧
    (resp.subtype = "error_during_execution" →
      (resp.isError = true → handleResult resp = .internalError (joinedErrors resp)) ∧
      (resp.isError = false → handleResult resp = .response .endTurn)) ∧
    (resp.subtype ≠ "success" → resp.subtype ≠ "error_max_turns" →
      resp.subtype ≠ "error_max_budget_usd" →
      resp.subtype ≠ "error_max_structured_output_retries" →
      resp.subtype ≠ "error_during_execution" →
      handleResult resp = .response .endTurn) := by
  refine ⟨?_, ?_, ?_, ?_⟩
  · intro h1
    exact ⟨fun h2 => by simp [handleResult, h1, h2],
      fun h2 h3 => by simp [handleResult, h1, h2, h3],
      fun h2 h3 => by simp [handleResult, h1, h2, h3]⟩
  · intro h1
    constructor <;> intro h2 <;> rcases h1 with h | h | h <;> simp [handleResult, h, h2]
  · intro h1
    exact ⟨fun h2 => by simp [handleResult, h1, h2], fun h2 => by simp [handleResult, h1, h2]⟩
  · intro h1 h2 h3 h4 h5
    simp [handleResult, h1, h2, h3, h4, h5]

/-- Witness for C4: a success result whose text contains the login marker
fails with the auth-required condition. -/
theorem handleResult_subtype_cases_witness :
    handleResult ⟨"success", "Please run /login to continue", false, []⟩ = .authRequired :=
  ((handleResult_subtype_cases ⟨"success", "Please run /login to continue", false, []⟩).1
    rfl).1 (by decide)

/-! ## C10: markdown fence escaping -/

theorem fenceFold_bounds (runs : List Nat) : ∀ f : Nat,
    f ≤ runs.foldl (fun f m => if f ≤ m then m + 1 else f) f ∧
    ∀ r ∈ runs, r < runs.foldl (fun f m => if f ≤ m then m + 1 else f) f := by
  induction runs with
  | nil => intro f; simp
  | cons m rest ih =>
    intro f
    simp only [List.foldl_cons]
    have step : f ≤ (if f ≤ m then m + 1 else f) := by split <;> omega
    have hm : m < (if f ≤ m then m + 1 else f) := by split <;> omega
    have h2 := ih (if f ≤ m then m + 1 else f)
    refine ⟨le_trans step h2.1, ?_⟩
    intro r hr
    rcases List.mem_cons.mp hr with rfl | hr
    · exact lt_of_lt_of_le hm h2.1
    · exact h2.2 r hr

/-- C10: `markdownEscape` returns fence + newline + text (plus a final
newline only when the text lacks one) + fence, where the fence is a run of at
least three backticks strictly longer than every leading backtick run of
length at least three at the start of any line of the text. -/
theorem markdownEscape_fence_dominates (text : String) :
    markdownEscape text =
      (⟨List.replicate (fenceLen text) '`'⟩ : String) ++ "\n" ++ text ++
        (if strEndsWith text "\n" then "" else "\n") ++
        (⟨List.replicate (fenceLen text) '`'⟩ : String) ∧
    3 ≤ fenceLen text ∧
    ∀ r ∈ fenceRuns text, r < fenceLen text :=
  ⟨rfl, (fenceFold_bounds (fenceRuns text) 3).1, (fenceFold_bounds (fenceRuns text) 3).2⟩

/-! ## C7: empty self-diff and the concrete insertion hunk -/

theorem diffOpsFuel_self (fuel : Nat) : ∀ (l : List String) (i j : Nat), l.length ≤ fuel →
    ∀ o ∈ diffOpsFuel fuel l l i j, o.op = ' ' := by
  induction fuel with
  | zero =>
    intro l i j h o ho
    simp [diffOpsFuel] at ho
  | succ n ih =>
    intro l i j h o ho
    cases l with
    | nil => simp [diffOpsFuel] at ho
    | cons x xs =>
      simp only [diffOpsFuel, if_pos rfl] at ho
      rcases List.mem_cons.mp ho with rfl | ho
      · rfl
      · exact ih xs (i + 1) (j + 1) (by simpa using Nat.le_of_succ_le_succ h) o ho

theorem groupHunksGo_all_space (ops : List DiffOp) (hsp : ∀ o ∈ ops, o.op = ' ') :
    ∀ (fuel idx : Nat) (acc : List DiffHunk), groupHunksGo ops fuel idx none acc = acc := by
  intro fuel
  induction fuel with
  | zero => intro idx acc; simp [groupHunksGo]
  | succ n ih =>
    intro idx acc
    have hop : (ops[idx]?.getD defaultOp).op = ' ' := by
      rcases h : ops[idx]? with _ | o
      · simp [List.getD, h, defaultOp]
      · have ho : o ∈ ops := by
          have := List.getElem?_eq_some.mp h
          rcases this with ⟨hlt, rfl⟩
          exact List.getElem_mem hlt
        simp [List.getD, h, hsp o ho]
    rw [groupHunksGo]
    rw [if_neg (by simp [hop])]
    exact ih (idx + 1) acc

/-- For identical inputs the diff engine emits no hunks, hence empty output. -/
theorem createUnifiedDiff_self (filename X : String) :
    createUnifiedDiff filename X X = "" := by
  have hsp : ∀ o ∈ diffOps (splitLines X) (splitLines X), o.op = ' ' :=
    diffOpsFuel_self _ _ 0 0 (by omega)
  have h0 : computeDiffHunks (splitLines X) (splitLines X) = [] := by
    unfold computeDiffHunks
    exact groupHunksGo_all_space _ hsp _ _ _
  simp [createUnifiedDiff, h0]

/-- C7: `createUnifiedDiff` on identical texts is empty for every text, and
the diff from "line1\nline3" to "line1\nline2\nline3" consists of one hunk
whose `+`-tagged lines are exactly ["line2"] and whose `-`-tagged lines are
empty. -/
theorem createUnifiedDiff_identity_and_insertion :
    (∀ filename X : String, createUnifiedDiff filename X X = "") ∧
    computeDiffHunks (splitLines "line1\nline3") (splitLines "line1\nline2\nline3") =
      [⟨0, 2, 0, 3, [" line1", "+line2", " line3"]⟩] ∧
    ((computeDiffHunks (splitLines "line1\nline3") (splitLines "line1\nline2\nline3")).map
        (fun h => h.lines.filterMap (fun line =>
          if strStartsWith line "+" then some (strDrop line 1) else none))) = [["line2"]] ∧
    ((computeDiffHunks (splitLines "line1\nline3") (splitLines "line1\nline2\nline3")).map
        (fun h => h.lines.filterMap (fun line =>
          if strStartsWith line "-" then some (strDrop line 1) else none))) = [[]] :=
  ⟨createUnifiedDiff_self, by decide, by decide, by decide⟩

/-! ## C2: shell rule matching -/

theorem toolArgAccessor_bash :
    toolArgAccessor (acpToolNamespace ++ "Bash") =
      some (fun input => getStringArg input "command") := rfl

theorem getStringArg_command (cmd : String) :
    getStringArg [("command", GoValue.str cmd)] "command" = cmd := rfl

/-- Evaluation of `matchesRule` for a `Bash` rule against the namespaced shell
tool with a string command argument. -/
theorem matchesRule_bash_eval (home cwd arg : String) (w : Bool) (cmd : String) :
    matchesRule home cwd ⟨"Bash", arg, w⟩ (acpToolNamespace ++ "Bash")
        [("command", GoValue.str cmd)] =
      (if arg = "" then true
       else if cmd = "" then false
       else if w then
         (strStartsWith cmd arg && !containsShellOperator (strDrop cmd (strLen arg)))
       else decide (cmd = arg)) := by
  unfold matchesRule
  simp only [toolArgAccessor_bash, getStringArg_command]
  simp

/-- Counterexample for C2: the argument-less rule "Bash" parses to a
non-wildcard rule and matches a command it is not byte-equal to, and the
empty-prefix wildcard rule "Bash(:*)" matches a command whose remainder after
the empty prefix contains the shell operator `&&`. -/
theorem bash_rule_matching_cex :
    parseRule "Bash" = ⟨"Bash", "", false⟩ ∧
    matchesRule "/h" "/w" (parseRule "Bash") (acpToolNamespace ++ "Bash")
        [("command", GoValue.str "rm -rf /")] = true ∧
    ("rm -rf /" : String) ≠ "" ∧
    parseRule "Bash(:*)" = ⟨"Bash", "", true⟩ ∧
    matchesRule "/h" "/w" (parseRule "Bash(:*)") (acpToolNamespace ++ "Bash")
        [("command", GoValue.str "echo hi && rm -rf /")] = true ∧
    containsShellOperator (strDrop "echo hi && rm -rf /" (strLen "")) = true := by
  decide

/-- C2 (amended): for the shell tool, a wildcard rule with a nonempty prefix
p matches command c iff c starts with p and the remainder of c after p
contains no shell operator from `&& || ; | $( backtick newline`; a
non-wildcard rule with a nonempty argument matches only on byte-equality;
rules whose argument is empty (the bare "Bash" rule, or the degenerate
"Bash(:*)" wildcard) match every command; prefix "npm run" matches
"npm run lint" and "npm run" but not "npm run && malicious". -/
theorem bash_rule_matching :
    (∀ home cwd pfx cmd, pfx ≠ "" →
      matchesRule home cwd ⟨"Bash", pfx, true⟩ (acpToolNamespace ++ "Bash")
          [("command", GoValue.str cmd)] =
        (strStartsWith cmd pfx && !containsShellOperator (strDrop cmd (strLen pfx)))) ∧
    (∀ home cwd arg cmd, arg ≠ "" →
      matchesRule home cwd ⟨"Bash", arg, false⟩ (acpToolNamespace ++ "Bash")
          [("command", GoValue.str cmd)] = decide (cmd = arg)) ∧
    (∀ home cwd cmd w,
      matchesRule home cwd ⟨"Bash", "", w⟩ (acpToolNamespace ++ "Bash")
          [("command", GoValue.str cmd)] = true) ∧
    parseRule "Bash(npm run:*)" = ⟨"Bash", "npm run", true⟩ ∧
    matchesRule "/h" "/w" ⟨"Bash", "npm run", true⟩ (acpToolNamespace ++ "Bash")
        [("command", GoValue.str "npm run lint")] = true ∧
    matchesRule "/h" "/w" ⟨"Bash", "npm run", true⟩ (acpToolNamespace ++ "Bash")
        [("command", GoValue.str "npm run")] = true ∧
    matchesRule "/h" "/w" ⟨"Bash", "npm run", true⟩ (acpToolNamespace ++ "Bash")
        [("command", GoValue.str "npm run && malicious")] = false := by
  refine ⟨?_, ?_, ?_, by decide, by decide, by decide, by decide⟩
  · intro home cwd pfx cmd hp
    rw [matchesRule_bash_eval, if_neg hp]
    by_cases hc : cmd = ""
    · subst hc
      rw [if_pos rfl, strStartsWith_empty_left pfx hp]
      simp
    · rw [if_neg hc]
      simp
  · intro home cwd arg cmd ha
    rw [matchesRule_bash_eval, if_neg ha]
    by_cases hc : cmd = ""
    · subst hc
      rw [if_pos rfl]
      simp [Ne.symm ha]
    · rw [if_neg hc]
      simp
  · intro home cwd cmd w
    rw [matchesRule_bash_eval, if_pos rfl]

/-- Witness for C2: the prefix "npm run" with command "npm run && malicious"
evaluates through the nonempty-prefix case of the theorem. -/
theorem bash_rule_matching_witness :
    matchesRule "/h" "/w" ⟨"Bash", "npm run", true⟩ (acpToolNamespace ++ "Bash")
        [("command", GoValue.str "npm run && malicious")] =
      (strStartsWith "npm run && malicious" "npm run" &&
        !containsShellOperator (strDrop "npm run && malicious" (strLen "npm run"))) :=
  bash_rule_matching.1 "/h" "/w" "npm run" "npm run && malicious" (by decide)

/-! ## C8: fallback for unmatched tool names -/

/-- Counterexample for C8: the unmatched tool name "SomeUnknownTool" yields
the other kind with its name as title but EMPTY content — `toolInfoFromToolUse`
does not dump the raw input for unmatched names (only the dedicated literal
name "Other" does). -/
theorem toolInfoFromToolUse_fallback_cex :
    toolInfoFromToolUse "SomeUnknownTool" [("x", GoValue.str "y")] =
      ⟨"SomeUnknownTool", .other, [], []⟩ ∧
    (toolInfoFromToolUse "SomeUnknownTool" [("x", GoValue.str "y")]).Content = [] ∧
    "SomeUnknownTool" ∉ handledToolNames := by
  refine ⟨by decide, by decide, by decide⟩

/-- C8 (amended): every tool name outside the start-mapping table falls back
to the other kind with the raw name as title — a generic unknown-tool label
when the name is blank — and no content; the dedicated case for the literal
name "Other" is the one that dumps the raw input as indented JSON in a fenced
text block. -/
theorem toolInfoFromToolUse_fallback (name : String) (input : ToolInput)
    (h : name ∉ handledToolNames) :
    toolInfoFromToolUse name input =
      ⟨if name = "" then "Unknown Tool" else name, .other, [], []⟩ ∧
    toolInfoFromToolUse "Other" input =
      ⟨"Other", .other,
        [ToolCallContent.textContent ("```json\n" ++ goJsonMarshalIndent input ++ "```")], []⟩ := by
  constructor
  · simp only [handledToolNames, List.mem_cons, List.not_mem_nil, or_false, not_or] at h
    obtain ⟨h1, h2, h3, h4, h5, h6, h7, h8, h9, h10, h11, h12, h13, h14, h15, h16, h17, h18,
      h19, h20, h21, h22, h23⟩ := h
    simp [toolInfoFromToolUse, h1, h2, h3, h4, h5, h6, h7, h8, h9, h10, h11, h12, h13, h14,
      h15, h16, h17, h18, h19, h20, h21, h22, h23]
  · rfl

/-- Witness for C8: instantiating the fallback at the unmatched name
"SomeUnknownTool". -/
theorem toolInfoFromToolUse_fallback_witness :
    toolInfoFromToolUse "SomeUnknownTool" [] =
      ⟨if ("SomeUnknownTool" : String) = "" then "Unknown Tool" else "SomeUnknownTool",
        .other, [], []⟩ :=
  (toolInfoFromToolUse_fallback "SomeUnknownTool" [] (by decide)).1

/-! ## C1: deny/allow/ask precedence and the `.env` example -/

theorem toolArgAccessor_read :
    toolArgAccessor (acpToolNamespace ++ "Read") =
      some (fun input => getStringArg input "file_path") := rfl

theorem getStringArg_file_path (p : String) :
    getStringArg [("file_path", GoValue.str p)] "file_path" = p := rfl

/-- Glob matching against a pattern with no metacharacters is equality. -/
theorem globMatchFuel_literal : ∀ (p : List Char) (fuel : Nat) (s : List Char),
    p.length < fuel → (∀ c ∈ p, c ≠ '*' ∧ c ≠ '?') →
    (globMatchFuel fuel p s = true ↔ s = p) := by
  intro p
  induction p with
  | nil =>
    intro fuel s hf hc
    cases fuel with
    | zero => omega
    | succ n => simp [globMatchFuel, List.isEmpty_iff]
  | cons c ps ih =>
    intro fuel s hf hc
    cases fuel with
    | zero => omega
    | succ n =>
      have hcc := hc c (List.mem_cons_self c ps)
      simp only [globMatchFuel, if_neg hcc.1, if_neg hcc.2]
      cases s with
      | nil => simp
      | cons d t =>
        have hrec := ih n t (by simpa using Nat.lt_of_succ_lt_succ hf)
          (fun x hx => hc x (List.mem_cons_of_mem _ hx))
        simp only [Bool.and_eq_true, decide_eq_true_eq, List.cons.injEq, hrec]
        exact ⟨fun ⟨h1, h2⟩ => ⟨h1.symm, h2⟩, fun ⟨h1, h2⟩ => ⟨h1.symm, h2⟩⟩

/-- Evaluation of `matchesRule` for a `Read` rule against the namespaced read
tool with a string path argument. -/
theorem matchesRule_read_eval (home cwd arg : String) (w : Bool) (p : String) :
    matchesRule home cwd ⟨"Read", arg, w⟩ (acpToolNamespace ++ "Read")
        [("file_path", GoValue.str p)] =
      (if arg = "" then true
       else if p = "" then false
       else matchesGlob home cwd arg p) := by
  unfold matchesRule
  simp only [toolArgAccessor_read, getStringArg_file_path]
  have hA : fileReadingTools.contains (acpToolNamespace ++ "Read") = true := by decide
  have hA2 : acpToolNamespace ++ "Read" ∈ fileReadingTools := by decide
  have hB : ((acpToolNamespace ++ "Read" : String) = acpToolNamespace ++ "Bash") = False :=
    eq_false (by decide)
  simp [hA, hA2, hB]

/-- C1: over any merged rule lists, `CheckPermission` on a namespaced tool
returns the first matching deny rule's deny decision; otherwise the first
matching allow rule's allow decision; otherwise the first matching ask rule's
ask decision; otherwise the ask default with no rule recorded (the matched
rule text is recorded in each case). With deny = ["Read(./.env)"] and
allow = ["Read"], a namespaced read of a path is denied exactly when the path
normalizes (against cwd /w) to the normalized ./.env, and allowed via the
"Read" rule for every other path — path aliases such as ".env" normalize to
the same file and are also denied. -/
theorem CheckPermission_precedence_and_example :
    (∀ home cwd (ps : PermissionSettings) toolName toolInput,
      strStartsWith toolName acpToolNamespace = true →
      ((∃ r ∈ ps.deny, matchesRule home cwd (parseRule r) toolName toolInput = true) →
        CheckPermission home cwd (some ps) toolName toolInput = ⟨.deny,
          (CheckPermission home cwd (some ps) toolName toolInput).Rule, "deny"⟩ ∧
        (CheckPermission home cwd (some ps) toolName toolInput).Rule ∈ ps.deny ∧
        matchesRule home cwd
          (parseRule (CheckPermission home cwd (some ps) toolName toolInput).Rule)
          toolName toolInput = true) ∧
      ((¬ ∃ r ∈ ps.deny, matchesRule home cwd (parseRule r) toolName toolInput = true) →
        (∃ r ∈ ps.allow, matchesRule home cwd (parseRule r) toolName toolInput = true) →
        CheckPermission home cwd (some ps) toolName toolInput = ⟨.allow,
          (CheckPermission home cwd (some ps) toolName toolInput).Rule, "allow"⟩ ∧
        (CheckPermission home cwd (some ps) toolName toolInput).Rule ∈ ps.allow ∧
        matchesRule home cwd
          (parseRule (CheckPermission home cwd (some ps) toolName toolInput).Rule)
          toolName toolInput = true) ∧
      ((¬ ∃ r ∈ ps.deny, matchesRule home cwd (parseRule r) toolName toolInput = true) →
        (¬ ∃ r ∈ ps.allow, matchesRule home cwd (parseRule r) toolName toolInput = true) →
        (∃ r ∈ ps.ask, matchesRule home cwd (parseRule r) toolName toolInput = true) →
        CheckPermission home cwd (some ps) toolName toolInput = ⟨.ask,
          (CheckPermission home cwd (some ps) toolName toolInput).Rule, "ask"⟩ ∧
        (CheckPermission home cwd (some ps) toolName toolInput).Rule ∈ ps.ask ∧
        matchesRule home cwd
          (parseRule (CheckPermission home cwd (some ps) toolName toolInput).Rule)
          toolName toolInput = true) ∧
      ((¬ ∃ r ∈ ps.deny, matchesRule home cwd (parseRule r) toolName toolInput = true) →
        (¬ ∃ r ∈ ps.allow, matchesRule home cwd (parseRule r) toolName toolInput = true) →
        (¬ ∃ r ∈ ps.ask, matchesRule home cwd (parseRule r) toolName toolInput = true) →
        CheckPermission home cwd (some ps) toolName toolInput = ⟨.ask, "", ""⟩)) ∧
    (∀ p : String,
      CheckPermission "/h" "/w" (some ⟨["Read"], ["Read(./.env)"], []⟩)
          (acpToolNamespace ++ "Read") [("file_path", GoValue.str p)] =
        if normalizePath "/h" "/w" p = normalizePath "/h" "/w" "./.env"
        then ⟨.deny, "Read(./.env)", "deny"⟩
        else ⟨.allow, "Read", "allow"⟩) := by
  constructor
  · intro home cwd ps toolName toolInput hns
    refine ⟨?_, ?_, ?_, ?_⟩
    · rintro ⟨r0, hr0, hm0⟩
      rcases hd : ps.deny.find?
          (fun rule => matchesRule home cwd (parseRule rule) toolName toolInput) with _ | r
      · exact absurd hm0 (by simpa using List.find?_eq_none.mp hd r0 hr0)
      · have hmem := List.mem_of_find?_eq_some hd
        have hP := List.find?_some hd
        have hres : CheckPermission home cwd (some ps) toolName toolInput = ⟨.deny, r, "deny"⟩ := by
          unfold CheckPermission
          simp [hns, hd]
        simp [hres, hmem, hP]
    · intro hnone
      rintro ⟨r0, hr0, hm0⟩
      have hd : ps.deny.find?
          (fun rule => matchesRule home cwd (parseRule rule) toolName toolInput) = none :=
        List.find?_eq_none.mpr (fun x hx h => hnone ⟨x, hx, by simpa using h⟩)
      rcases ha : ps.allow.find?
          (fun rule => matchesRule home cwd (parseRule rule) toolName toolInput) with _ | r
      · exact absurd hm0 (by simpa using List.find?_eq_none.mp ha r0 hr0)
      · have hmem := List.mem_of_find?_eq_some ha
        have hP := List.find?_some ha
        have hres : CheckPermission home cwd (some ps) toolName toolInput =
            ⟨.allow, r, "allow"⟩ := by
          unfold CheckPermission
          simp [hns, hd, ha]
        simp [hres, hmem, hP]
    · intro hnoneD hnoneA
      rintro ⟨r0, hr0, hm0⟩
      have hd : ps.deny.find?
          (fun rule => matchesRule home cwd (parseRule rule) toolName toolInput) = none :=
        List.find?_eq_none.mpr (fun x hx h => hnoneD ⟨x, hx, by simpa using h⟩)
      have ha : ps.allow.find?
          (fun rule => matchesRule home cwd (parseRule rule) toolName toolInput) = none :=
        List.find?_eq_none.mpr (fun x hx h => hnoneA ⟨x, hx, by simpa using h⟩)
      rcases hk : ps.ask.find?
          (fun rule => matchesRule home cwd (parseRule rule) toolName toolInput) with _ | r
      · exact absurd hm0 (by simpa using List.find?_eq_none.mp hk r0 hr0)
      · have hmem := List.mem_of_find?_eq_some hk
        have hP := List.find?_some hk
        have hres : CheckPermission home cwd (some ps) toolName toolInput = ⟨.ask, r, "ask"⟩ := by
          unfold CheckPermission
          simp [hns, hd, ha, hk]
        simp [hres, hmem, hP]
    · intro hnoneD hnoneA hnoneK
      have hd : ps.deny.find?
          (fun rule => matchesRule home cwd (parseRule rule) toolName toolInput) = none :=
        List.find?_eq_none.mpr (fun x hx h => hnoneD ⟨x, hx, by simpa using h⟩)
      have ha : ps.allow.find?
          (fun rule => matchesRule home cwd (parseRule rule) toolName toolInput) = none :=
        List.find?_eq_none.mpr (fun x hx h => hnoneA ⟨x, hx, by simpa using h⟩)
      have hk : ps.ask.find?
          (fun rule => matchesRule home cwd (parseRule rule) toolName toolInput) = none :=
        List.find?_eq_none.mpr (fun x hx h => hnoneK ⟨x, hx, by simpa using h⟩)
      unfold CheckPermission
      simp [hns, hd, ha, hk]
  · intro p
    have hnorm : normalizePath "/h" "/w" "./.env" = "/w/.env" := by decide
    rw [hnorm]
    by_cases hp : p = ""
    · subst hp
      rw [if_neg (by decide)]
      decide
    · have hparse_deny : parseRule "Read(./.env)" = ⟨"Read", "./.env", false⟩ := by decide
      have hparse_allow : parseRule "Read" = ⟨"Read", "", false⟩ := by decide
      have hglob : matchesGlob "/h" "/w" "./.env" p =
          decide (normalizePath "/h" "/w" p = "/w/.env") := by
        unfold matchesGlob
        rw [hnorm]
        have hlit := globMatchFuel_literal "/w/.env".data ("/w/.env".data.length + 1)
          (normalizePath "/h" "/w" p).data (by omega) (by decide)
        rcases hg : globMatch "/w/.env".data (normalizePath "/h" "/w" p).data with _ | _
        · have hne : ¬ (normalizePath "/h" "/w" p = "/w/.env") := by
            intro he
            have : globMatchFuel ("/w/.env".data.length + 1) "/w/.env".data
                (normalizePath "/h" "/w" p).data = true := hlit.mpr (by rw [he])
            rw [show globMatchFuel ("/w/.env".data.length + 1) "/w/.env".data
                (normalizePath "/h" "/w" p).data =
              globMatch "/w/.env".data (normalizePath "/h" "/w" p).data from rfl] at this
            rw [hg] at this
            cases this
          simp [hne]
        · have hdata := hlit.mp (by
            rw [show globMatchFuel ("/w/.env".data.length + 1) "/w/.env".data
                (normalizePath "/h" "/w" p).data =
              globMatch "/w/.env".data (normalizePath "/h" "/w" p).data from rfl]
            exact hg)
          have heq : normalizePath "/h" "/w" p = "/w/.env" := by
            have h1 : normalizePath "/h" "/w" p = ⟨(normalizePath "/h" "/w" p).data⟩ := rfl
            rw [h1, hdata]
          simp [heq]
      have hdeny : matchesRule "/h" "/w" (parseRule "Read(./.env)") (acpToolNamespace ++ "Read")
          [("file_path", GoValue.str p)] =
            decide (normalizePath "/h" "/w" p = "/w/.env") := by
        rw [hparse_deny, matchesRule_read_eval,
          if_neg (by decide : ¬ ("./.env" : String) = ""), if_neg hp, hglob]
      have hallow : matchesRule "/h" "/w" (parseRule "Read") (acpToolNamespace ++ "Read")
          [("file_path", GoValue.str p)] = true := by
        rw [hparse_allow, matchesRule_read_eval, if_pos rfl]
      have hsw : strStartsWith (acpToolNamespace ++ "Read") acpToolNamespace = true := by decide
      by_cases hn : normalizePath "/h" "/w" p = "/w/.env"
      · rw [if_pos hn]
        unfold CheckPermission
        simp [hsw, List.find?, hdeny, hn]
      · rw [if_neg hn]
        unfold CheckPermission
        simp [hsw, List.find?, hdeny, hn, hallow]

/-- Witness for C1: with deny = ["Read(./.env)"] and allow = ["Read"], a
namespaced read of "./.env" itself is denied with the deny rule recorded. -/
theorem CheckPermission_precedence_and_example_witness :
    CheckPermission "/h" "/w" (some ⟨["Read"], ["Read(./.env)"], []⟩)
        (acpToolNamespace ++ "Read") [("file_path", GoValue.str "./.env")] =
      (if normalizePath "/h" "/w" "./.env" = normalizePath "/h" "/w" "./.env"
       then ⟨.deny, "Read(./.env)", "deny"⟩
       else ⟨.allow, "Read", "allow"⟩) :=
  CheckPermission_precedence_and_example.2 "./.env"

/-! ## C5: byte-limited line extraction -/

/-- Concatenation of line segments with newlines (left inverse of
`splitOnChar '\n'`). -/
def joinNl : List (List Char) → List Char
  | [] => []
  | [l] => l
  | l :: l2 :: rest => l ++ '\n' :: joinNl (l2 :: rest)

theorem splitOnChar_ne_nil (sep : Char) (s : List Char) : splitOnChar sep s ≠ [] := by
  cases s with
  | nil => simp [splitOnChar]
  | cons c rest =>
    simp only [splitOnChar]
    by_cases hc : c = sep
    · simp [hc]
    · rw [if_neg hc]
      rcases hsp : splitOnChar sep rest with _ | ⟨l, ls⟩ <;> simp [hsp]

theorem joinNl_splitOnChar (s : List Char) : joinNl (splitOnChar '\n' s) = s := by
  induction s with
  | nil => rfl
  | cons c rest ih =>
    by_cases hc : c = '\n'
    · subst hc
      rw [splitOnChar, if_pos rfl]
      rcases hsp : splitOnChar '\n' rest with _ | ⟨l, ls⟩
      · exact absurd hsp (splitOnChar_ne_nil _ _)
      · rw [hsp] at ih
        simp [joinNl, ih]
    · rw [splitOnChar, if_neg hc]
      rcases hsp : splitOnChar '\n' rest with _ | ⟨l, ls⟩
      · exact absurd hsp (splitOnChar_ne_nil _ _)
      · rw [hsp] at ih
        cases ls with
        | nil =>
          simp only [joinNl] at ih ⊢
          rw [ih]
        | cons l2 ls2 =>
          simp only [joinNl] at ih ⊢
          simp [ih]

theorem lineStopsAux_ne_nil (segs : List (List Char)) (h : segs ≠ []) (clen : Nat) :
    lineStopsAux segs clen ≠ [] := by
  cases segs with
  | nil => exact absurd rfl h
  | cons l rest => cases rest <;> simp [lineStopsAux]

theorem lineStopsAux_ge (segs : List (List Char)) : ∀ (clen : Nat),
    ∀ b ∈ lineStopsAux segs clen, clen ≤ b := by
  induction segs with
  | nil => intro clen b hb; simp [lineStopsAux] at hb
  | cons l rest ih =>
    intro clen b hb
    cases rest with
    | nil =>
      simp [lineStopsAux] at hb
      omega
    | cons l2 rest2 =>
      simp only [lineStopsAux, List.mem_cons] at hb
      rcases hb with rfl | hb
      · omega
      · have := ih (clen + l.length + 1) b hb
        omega

theorem lineStopsAux_le_total (segs : List (List Char)) : ∀ (clen : Nat),
    ∀ b ∈ lineStopsAux segs clen, b ≤ clen + (joinNl segs).length := by
  induction segs with
  | nil => intro clen b hb; simp [lineStopsAux] at hb
  | cons l rest ih =>
    intro clen b hb
    cases rest with
    | nil =>
      simp only [lineStopsAux, List.mem_singleton] at hb
      subst hb
      simp [joinNl]
    | cons l2 rest2 =>
      simp only [lineStopsAux, List.mem_cons] at hb
      have hlen : (joinNl (l :: l2 :: rest2)).length =
          l.length + 1 + (joinNl (l2 :: rest2)).length := by
        simp only [joinNl, List.length_append, List.length_cons]
        omega
      rcases hb with rfl | hb
      · omega
      · have := ih (clen + l.length + 1) b hb
        omega

theorem getLast?_cons_of_ne_nil {α : Type} (a : α) (l : List α) (h : l ≠ []) :
    (a :: l).getLast? = l.getLast? := by
  cases l with
  | nil => exact absurd rfl h
  | cons b t => exact List.getLast?_cons_cons

theorem lineStopsAux_getLast (segs : List (List Char)) (h : segs ≠ []) : ∀ (clen : Nat),
    (lineStopsAux segs clen).getLast? = some (clen + (joinNl segs).length) := by
  induction segs with
  | nil => exact absurd rfl h
  | cons l rest ih =>
    intro clen
    cases rest with
    | nil => simp [lineStopsAux, joinNl]
    | cons l2 rest2 =>
      rw [show lineStopsAux (l :: l2 :: rest2) clen =
        (clen + l.length + 1) :: lineStopsAux (l2 :: rest2) (clen + l.length + 1) from rfl]
      rw [getLast?_cons_of_ne_nil _ _ (lineStopsAux_ne_nil _ (by simp) _)]
      rw [ih (by simp) (clen + l.length + 1)]
      simp only [joinNl, List.length_append, List.length_cons, Option.some.injEq]
      omega

/-- Loop invariant of `extractLoop`: the returned content length never
shrinks; it is the previous boundary (early limited stop) or the `k`-th line
boundary with `k + 1` more lines counted; every boundary past the returned
length exceeds the limit (and the limited flag is set); and an un-limited run
consumes every segment up to the final boundary. -/
theorem extractLoop_spec (m : Nat) : ∀ (segs : List (List Char)), segs ≠ [] →
    ∀ (seen clen : Nat),
      clen ≤ (extractLoop m segs seen clen).1 ∧
      ((extractLoop m segs seen clen).2.1 = seen ∧ (extractLoop m segs seen clen).1 = clen ∧
          (extractLoop m segs seen clen).2.2 = true ∧ 0 < seen ∨
        ∃ k, (lineStopsAux segs clen).get? k = some (extractLoop m segs seen clen).1 ∧
          (extractLoop m segs seen clen).2.1 = seen + k + 1) ∧
      (∀ b ∈ lineStopsAux segs clen, (extractLoop m segs seen clen).1 < b →
        (extractLoop m segs seen clen).2.2 = true ∧ m < b) ∧
      ((extractLoop m segs seen clen).2.2 = false →
        (extractLoop m segs seen clen).2.1 = seen + segs.length ∧
        (lineStopsAux segs clen).getLast? = some (extractLoop m segs seen clen).1) := by
  intro segs
  induction segs with
  | nil => intro h; exact absurd rfl h
  | cons l rest ih =>
    intro _ seen clen
    cases rest with
    | nil =>
      simp only [extractLoop, lineStopsAux]
      by_cases hcond : 0 < seen ∧ m < clen + l.length
      · rw [if_pos hcond]
        refine ⟨le_refl _, Or.inl ⟨rfl, rfl, rfl, hcond.1⟩, ?_, by simp⟩
        intro b hb hlt
        simp only [List.mem_singleton] at hb
        subst hb
        exact ⟨rfl, hcond.2⟩
      · rw [if_neg hcond]
        refine ⟨Nat.le_add_right _ _, Or.inr ⟨0, by simp, rfl⟩, ?_, ?_⟩
        · intro b hb hlt
          simp only [List.mem_singleton] at hb
          omega
        · intro _
          simp
    | cons l2 rest2 =>
      simp only [extractLoop, lineStopsAux]
      by_cases hcond : 0 < seen ∧ m < clen + l.length + 1
      · rw [if_pos hcond]
        refine ⟨le_refl _, Or.inl ⟨rfl, rfl, rfl, hcond.1⟩, ?_, by simp⟩
        intro b hb hlt
        simp only [List.mem_cons] at hb
        rcases hb with rfl | hb
        · exact ⟨rfl, hcond.2⟩
        · have hge := lineStopsAux_ge (l2 :: rest2) (clen + l.length + 1) b hb
          exact ⟨rfl, by omega⟩
      · rw [if_neg hcond]
        have ihr := ih (by simp) (seen + 1) (clen + l.length + 1)
        refine ⟨by omega, ?_, ?_, ?_⟩
        · rcases ihr.2.1 with ⟨hseen, hclen, hlim, hpos⟩ | ⟨k, hk1, hk2⟩
          · exact Or.inr ⟨0, by simp [hclen], by omega⟩
          · exact Or.inr ⟨k + 1, by simpa using hk1, by omega⟩
        · intro b hb hlt
          simp only [List.mem_cons] at hb
          rcases hb with rfl | hb
          · omega
          · exact ihr.2.2.1 b hb hlt
        · intro hf
          obtain ⟨hcount, hlast⟩ := ihr.2.2.2 hf
          refine ⟨?_, ?_⟩
          · rw [hcount]
            simp only [List.length_cons]
            omega
          · rw [getLast?_cons_of_ne_nil _ _ (lineStopsAux_ne_nil _ (by simp) _)]
            exact hlast

/-- C5: on non-empty content, `extractLinesWithByteLimit` reads at least one
line (the first line is always included); the content is a prefix of the
input ending exactly at the `LinesRead`-th line boundary; every line boundary
beyond the returned content exceeds the byte limit (so a limit falling
between boundaries truncates to the last wholly-contained line, with the
limited flag set and `LinesRead` counting the included lines); and an
un-limited result returns the whole content. -/
theorem extractLinesWithByteLimit_spec (s : String) (m : Nat) (h : s ≠ "") :
    1 ≤ (extractLinesWithByteLimit s m).LinesRead ∧
    (lineStops s.data).get? ((extractLinesWithByteLimit s m).LinesRead - 1) =
      some (extractLinesWithByteLimit s m).Content.data.length ∧
    (extractLinesWithByteLimit s m).Content.data <+: s.data ∧
    (∀ b ∈ lineStops s.data, (extractLinesWithByteLimit s m).Content.data.length < b →
      (extractLinesWithByteLimit s m).WasLimited = true ∧ m < b) ∧
    ((extractLinesWithByteLimit s m).WasLimited = false →
      (extractLinesWithByteLimit s m).Content = s) := by
  have hne : splitOnChar '\n' s.data ≠ [] := splitOnChar_ne_nil _ _
  have hspec := extractLoop_spec m (splitOnChar '\n' s.data) hne 0 0
  have hres : extractLinesWithByteLimit s m =
      ⟨⟨s.data.take (extractLoop m (splitOnChar '\n' s.data) 0 0).1⟩,
        (extractLoop m (splitOnChar '\n' s.data) 0 0).2.2,
        (extractLoop m (splitOnChar '\n' s.data) 0 0).2.1⟩ := by
    unfold extractLinesWithByteLimit
    rw [if_neg h]
  rcases hspec.2.1 with ⟨_, _, _, hpos⟩ | ⟨k, hk1, hk2⟩
  · omega
  · have hjoin : joinNl (splitOnChar '\n' s.data) = s.data := joinNl_splitOnChar s.data
    have hmem : (extractLoop m (splitOnChar '\n' s.data) 0 0).1 ∈
        lineStopsAux (splitOnChar '\n' s.data) 0 := List.get?_mem hk1
    have hle : (extractLoop m (splitOnChar '\n' s.data) 0 0).1 ≤ s.data.length := by
      have := lineStopsAux_le_total (splitOnChar '\n' s.data) 0
        (extractLoop m (splitOnChar '\n' s.data) 0 0).1 hmem
      rw [hjoin] at this
      omega
    have hlen : ((s.data.take (extractLoop m (splitOnChar '\n' s.data) 0 0).1)).length =
        (extractLoop m (splitOnChar '\n' s.data) 0 0).1 := by
      rw [List.length_take]
      omega
    refine ⟨?_, ?_, ?_, ?_, ?_⟩
    · rw [hres]
      show 1 ≤ (extractLoop m (splitOnChar '\n' s.data) 0 0).2.1
      omega
    · rw [hres]
      show (lineStopsAux (splitOnChar '\n' s.data) 0).get?
          ((extractLoop m (splitOnChar '\n' s.data) 0 0).2.1 - 1) =
        some (s.data.take (extractLoop m (splitOnChar '\n' s.data) 0 0).1).length
      rw [hlen, show (extractLoop m (splitOnChar '\n' s.data) 0 0).2.1 - 1 = k from by omega]
      exact hk1
    · rw [hres]
      exact List.take_prefix _ _
    · intro b hb hlt
      rw [hres] at hlt ⊢
      have hb2 : b ∈ lineStopsAux (splitOnChar '\n' s.data) 0 := hb
      have hlt2 : (s.data.take (extractLoop m (splitOnChar '\n' s.data) 0 0).1).length < b := hlt
      rw [hlen] at hlt2
      exact hspec.2.2.1 b hb2 hlt2
    · intro hf
      rw [hres] at hf ⊢
      have hf2 : (extractLoop m (splitOnChar '\n' s.data) 0 0).2.2 = false := hf
      obtain ⟨hcount, hlast⟩ := hspec.2.2.2 hf2
      have hlast2 := lineStopsAux_getLast (splitOnChar '\n' s.data) hne 0
      rw [hlast2] at hlast
      have htot : (extractLoop m (splitOnChar '\n' s.data) 0 0).1 = s.data.length := by
        have := Option.some.inj hlast
        rw [hjoin] at this
        omega
      show (⟨s.data.take (extractLoop m (splitOnChar '\n' s.data) 0 0).1⟩ : String) = s
      rw [htot, List.take_length]

/-- Witness for C5: content "ab\ncd\nef" with limit 5 stops at the first line
boundary, with the boundary list recording the content length at index
`LinesRead - 1`. -/
theorem extractLinesWithByteLimit_spec_witness :
    (lineStops ("ab\ncd\nef" : String).data).get?
        ((extractLinesWithByteLimit "ab\ncd\nef" 5).LinesRead - 1) =
      some (extractLinesWithByteLimit "ab\ncd\nef" 5).Content.data.length :=
  (extractLinesWithByteLimit_spec "ab\ncd\nef" 5 (by decide)).2.1

/-! ## C3: diff computation / parse round trip -/

theorem digitChar_isDigit (k : Nat) (hk : k < 10) : (Char.ofNat (48 + k)).isDigit = true := by
  interval_cases k <;> decide

theorem natDigitsAux_isDigit (fuel : Nat) : ∀ (n : Nat), ∀ c ∈ natDigitsAux fuel n,
    c.isDigit = true := by
  induction fuel with
  | zero => intro n c hc; simp [natDigitsAux] at hc
  | succ f ih =>
    intro n c hc
    simp only [natDigitsAux] at hc
    by_cases h : n < 10
    · rw [if_pos h] at hc
      simp only [List.mem_singleton] at hc
      subst hc
      exact digitChar_isDigit n h
    · rw [if_neg h] at hc
      rcases List.mem_append.mp hc with hc | hc
      · exact ih (n / 10) c hc
      · simp only [List.mem_singleton] at hc
        subst hc
        exact digitChar_isDigit (n % 10) (Nat.mod_lt n (by omega))

theorem natRepr_isDigit (n : Nat) : ∀ c ∈ (natRepr n).data, c.isDigit = true :=
  natDigitsAux_isDigit (n + 1) n

theorem isDigit_ne (c : Char) (h : c.isDigit = true) (d : Char) (hd : d.isDigit = false) :
    c ≠ d := fun he => by rw [he, hd] at h; cases h

/-- `splitOnChar` peels off one separator-free line followed by the
separator. -/
theorem splitOnChar_append_cons (sep : Char) : ∀ (l : List Char), sep ∉ l → ∀ (rest : List Char),
    splitOnChar sep (l ++ sep :: rest) = l :: splitOnChar sep rest := by
  intro l
  induction l with
  | nil =>
    intro _ rest
    simp [splitOnChar]
  | cons c t ih =>
    intro hl rest
    have hc : c ≠ sep := fun he => hl (by simp [he])
    have ht : sep ∉ t := fun hm => hl (List.mem_cons_of_mem _ hm)
    simp only [List.cons_append, splitOnChar, if_neg hc]
    rw [show (t.append (sep :: rest)) = t ++ sep :: rest from rfl, ih ht rest]

/-- Splitting the newline-terminated rendering of a list of newline-free
lines yields those lines followed by one empty piece. -/
theorem splitOnChar_joined (sep : Char) : ∀ (ls : List (List Char)),
    (∀ l ∈ ls, sep ∉ l) →
    splitOnChar sep (ls.map (fun l => l ++ [sep])).flatten = ls ++ [[]] := by
  intro ls
  induction ls with
  | nil => intro _; simp [splitOnChar]
  | cons l rest ih =>
    intro h
    simp only [List.map_cons, List.flatten_cons, List.append_assoc, List.singleton_append]
    rw [splitOnChar_append_cons sep l (h l (List.mem_cons_self l rest))]
    rw [ih (fun x hx => h x (List.mem_cons_of_mem _ hx))]
    simp

theorem joinNl_eq_intercalate : ∀ (xs : List (List Char)),
    List.intercalate ['\n'] xs = joinNl xs := by
  intro xs
  induction xs with
  | nil => simp [List.intercalate, joinNl]
  | cons l rest ih =>
    cases rest with
    | nil => simp [List.intercalate, List.intersperse_singleton, joinNl]
    | cons l2 rest2 =>
      simp only [List.intercalate, List.intersperse_cons_cons, List.flatten_cons, joinNl] at ih ⊢
      rw [ih]
      simp

/-- Joining the split lines of a string with newlines recovers the string. -/
theorem strJoin_splitLines (A : String) : strJoin "\n" (splitLines A) = A := by
  by_cases hA : A = ""
  · subst hA
    rfl
  · unfold splitLines strJoin
    rw [if_neg hA]
    have hmap : (((splitOnChar '\n' A.data).map (fun l => (⟨l⟩ : String))).map String.data) =
        splitOnChar '\n' A.data := by
      rw [List.map_map]
      exact List.map_id'' (fun _ => rfl) _
    rw [hmap, show ("\n" : String).data = ['\n'] from rfl, joinNl_eq_intercalate,
      joinNl_splitOnChar]

/-- Lines produced by `splitOnChar` never contain the separator. -/
theorem splitOnChar_pieces (sep : Char) : ∀ (s : List Char), ∀ piece ∈ splitOnChar sep s,
    sep ∉ piece := by
  intro s
  induction s with
  | nil =>
    intro piece hp
    simp only [splitOnChar, List.mem_singleton] at hp
    subst hp
    simp
  | cons c rest ih =>
    intro piece hp
    by_cases hc : c = sep
    · rw [splitOnChar, if_pos hc] at hp
      rcases List.mem_cons.mp hp with rfl | hp
      · simp
      · exact ih piece hp
    · rw [splitOnChar, if_neg hc] at hp
      rcases hsp : splitOnChar sep rest with _ | ⟨l, ls⟩
      · exact absurd hsp (splitOnChar_ne_nil _ _)
      · rw [hsp] at hp
        rcases List.mem_cons.mp hp with rfl | hp
        · intro hm
          rcases List.mem_cons.mp hm with rfl | hm
          · exact hc rfl
          · exact ih l (hsp ▸ List.mem_cons_self l ls) hm
        · exact ih piece (hsp ▸ List.mem_cons_of_mem _ hp)

/-- The LCS-table recurrence on line lists with no common line is zero. -/
theorem lcsLenFuel_disjoint (fuel : Nat) : ∀ (a b : List String), (∀ x ∈ a, x ∉ b) →
    lcsLenFuel fuel a b = 0 := by
  induction fuel with
  | zero => intro a b _; rfl
  | succ f ih =>
    intro a b hdisj
    cases a with
    | nil => rfl
    | cons x xs =>
      cases b with
      | nil => rfl
      | cons y ys =>
        have hxy : x ≠ y := fun he =>
          hdisj x (List.mem_cons_self x xs) (he ▸ List.mem_cons_self y ys)
        rw [lcsLenFuel, if_neg hxy,
          ih xs (y :: ys) (fun z hz => hdisj z (List.mem_cons_of_mem _ hz)),
          ih (x :: xs) ys (fun z hz hm => hdisj z hz (List.mem_cons_of_mem _ hm))]
        simp

/-- The pure-deletion tail of the edit-script walk. -/
def delOps : List String → Nat → Nat → List DiffOp
  | [], _, _ => []
  | x :: xs, i, j => ⟨'-', x, i, j⟩ :: delOps xs (i + 1) j

/-- The pure-insertion tail of the edit-script walk. -/
def insOps : List String → Nat → Nat → List DiffOp
  | [], _, _ => []
  | y :: ys, i, j => ⟨'+', y, i, j⟩ :: insOps ys i (j + 1)

/-- On disjoint line lists the walk deletes all old lines, then inserts all
new lines. -/
theorem diffOpsFuel_disjoint (fuel : Nat) : ∀ (a b : List String) (i j : Nat),
    (∀ x ∈ a, x ∉ b) → a.length + b.length ≤ fuel →
    diffOpsFuel fuel a b i j = delOps a i j ++ insOps b (i + a.length) j := by
  induction fuel with
  | zero =>
    intro a b i j _ hlen
    have ha : a = [] := List.eq_nil_of_length_eq_zero (by omega)
    have hb : b = [] := List.eq_nil_of_length_eq_zero (by omega)
    subst ha; subst hb
    rfl
  | succ f ih =>
    intro a b i j hdisj hlen
    cases a with
    | nil =>
      cases b with
      | nil => rfl
      | cons y ys =>
        rw [diffOpsFuel, ih [] ys i (j + 1) (by simp) (by simp at hlen ⊢; omega)]
        simp [delOps, insOps]
    | cons x xs =>
      cases b with
      | nil =>
        rw [diffOpsFuel, ih xs [] (i + 1) j (by simp) (by simp at hlen ⊢; omega)]
        simp [delOps, insOps]
      | cons y ys =>
        have hxy : x ≠ y := fun he =>
          hdisj x (List.mem_cons_self x xs) (he ▸ List.mem_cons_self y ys)
        have h1 : lcsLen xs (y :: ys) = 0 :=
          lcsLenFuel_disjoint _ xs (y :: ys) (fun z hz => hdisj z (List.mem_cons_of_mem _ hz))
        have h2 : lcsLen (x :: xs) ys = 0 :=
          lcsLenFuel_disjoint _ (x :: xs) ys (fun z hz hm => hdisj z hz (List.mem_cons_of_mem _ hm))
        rw [diffOpsFuel, if_neg hxy, if_pos (by rw [h1, h2]),
          ih xs (y :: ys) (i + 1) j (fun z hz => hdisj z (List.mem_cons_of_mem _ hz))
            (by simp at hlen ⊢; omega)]
        simp only [delOps, List.cons_append, List.length_cons]
        rw [show i + 1 + xs.length = i + (xs.length + 1) from by omega]

/-- The edit script for disjoint line lists. -/
theorem diffOps_disjoint (a b : List String) (hdisj : ∀ x ∈ a, x ∉ b) :
    diffOps a b = delOps a 0 0 ++ insOps b a.length 0 := by
  unfold diffOps
  rw [diffOpsFuel_disjoint _ a b 0 0 hdisj (le_refl _)]
  simp

theorem delOps_op : ∀ (xs : List String) (i j : Nat), ∀ o ∈ delOps xs i j, o.op = '-' := by
  intro xs
  induction xs with
  | nil => intro i j o ho; simp [delOps] at ho
  | cons x t ih =>
    intro i j o ho
    rcases List.mem_cons.mp ho with rfl | ho
    · rfl
    · exact ih (i + 1) j o ho

theorem insOps_op : ∀ (ys : List String) (i j : Nat), ∀ o ∈ insOps ys i j, o.op = '+' := by
  intro ys
  induction ys with
  | nil => intro i j o ho; simp [insOps] at ho
  | cons y t ih =>
    intro i j o ho
    rcases List.mem_cons.mp ho with rfl | ho
    · rfl
    · exact ih i (j + 1) o ho

/-- When every remaining op is a change, the grouping loop keeps appending
change lines to the open hunk until the ops run out, then flushes it. -/
theorem groupHunksGo_all_change_aux (ops : List DiffOp) (hall : ∀ o ∈ ops, o.op ≠ ' ') :
    ∀ (fuel idx : Nat), fuel + idx = ops.length →
      ∀ (h : DiffHunk) (acc : List DiffHunk),
        groupHunksGo ops fuel idx (some h) acc =
          acc ++ [(ops.drop idx).foldl addChangeLine h] := by
  intro fuel
  induction fuel with
  | zero =>
    intro idx hidx h acc
    rw [groupHunksGo]
    rw [List.drop_eq_nil_of_le (by omega)]
    simp
  | succ f ih =>
    intro idx hidx h acc
    have hlt : idx < ops.length := by omega
    have hgetd : ops.getD idx defaultOp = ops[idx] := by
      simp [List.getD, List.getElem?_eq_getElem hlt]
    have hop : ops[idx].op ≠ ' ' := hall _ (List.getElem_mem hlt)
    rw [groupHunksGo]
    rw [if_pos (by rw [hgetd]; exact hop)]
    rw [ih (idx + 1) (by omega) (addChangeLine h (ops.getD idx defaultOp)) acc]
    rw [List.drop_eq_getElem_cons hlt, List.foldl_cons, hgetd]

/-- Grouping a non-empty all-change edit script yields a single hunk starting
at the first op's indices and folding in every change line. -/
theorem groupHunksGo_all_change (o : DiffOp) (rest : List DiffOp)
    (hall : ∀ x ∈ o :: rest, x.op ≠ ' ') :
    groupHunksGo (o :: rest) (o :: rest).length 0 none [] =
      [(o :: rest).foldl addChangeLine ⟨o.oldN, 0, o.newN, 0, []⟩] := by
  have hnew : newHunkAt (o :: rest) 0 o = ⟨o.oldN, 0, o.newN, 0, []⟩ := by
    simp [newHunkAt]
  rw [show (o :: rest).length = rest.length + 1 from by simp]
  rw [groupHunksGo]
  have hgetd : (o :: rest).getD 0 defaultOp = o := rfl
  rw [if_pos (by rw [hgetd]; exact hall o (List.mem_cons_self o rest))]
  rw [hgetd, hnew]
  rw [groupHunksGo_all_change_aux (o :: rest) hall rest.length 1 (by simp) _ _]
  simp [List.foldl_cons]

theorem foldl_addChangeLine_del : ∀ (xs : List String) (i j os oc ns nc : Nat)
    (ls : List String),
    (delOps xs i j).foldl addChangeLine ⟨os, oc, ns, nc, ls⟩ =
      ⟨os, oc + xs.length, ns, nc, ls ++ xs.map (fun x => "-" ++ x)⟩ := by
  intro xs
  induction xs with
  | nil => intro i j os oc ns nc ls; simp [delOps]
  | cons x t ih =>
    intro i j os oc ns nc ls
    simp only [delOps, List.foldl_cons]
    have hstep : addChangeLine ⟨os, oc, ns, nc, ls⟩ ⟨'-', x, i, j⟩ =
        ⟨os, oc + 1, ns, nc, ls ++ ["-" ++ x]⟩ := rfl
    rw [hstep, ih]
    simp [List.map_cons, List.append_assoc]
    omega

theorem foldl_addChangeLine_ins : ∀ (ys : List String) (i j os oc ns nc : Nat)
    (ls : List String),
    (insOps ys i j).foldl addChangeLine ⟨os, oc, ns, nc, ls⟩ =
      ⟨os, oc, ns, nc + ys.length, ls ++ ys.map (fun y => "+" ++ y)⟩ := by
  intro ys
  induction ys with
  | nil => intro i j os oc ns nc ls; simp [insOps]
  | cons y t ih =>
    intro i j os oc ns nc ls
    simp only [insOps, List.foldl_cons]
    have hstep : addChangeLine ⟨os, oc, ns, nc, ls⟩ ⟨'+', y, i, j⟩ =
        ⟨os, oc, ns, nc + 1, ls ++ ["+" ++ y]⟩ := rfl
    rw [hstep, ih]
    simp [List.map_cons, List.append_assoc]
    omega

/-- On disjoint line lists the diff engine produces exactly one hunk: all old
lines removed, then all new lines added, starting at line 0 of both sides. -/
theorem computeDiffHunks_disjoint (aL bL : List String)
    (hdisj : ∀ x ∈ aL, x ∉ bL) (hne : aL ≠ [] ∨ bL ≠ []) :
    computeDiffHunks aL bL =
      [⟨0, aL.length, 0, bL.length,
        aL.map (fun l => "-" ++ l) ++ bL.map (fun l => "+" ++ l)⟩] := by
  have hops : diffOps aL bL = delOps aL 0 0 ++ insOps bL aL.length 0 :=
    diffOps_disjoint aL bL hdisj
  have hall : ∀ x ∈ delOps aL 0 0 ++ insOps bL aL.length 0, x.op ≠ ' ' := by
    intro x hx
    rcases List.mem_append.mp hx with hx | hx
    · rw [delOps_op aL 0 0 x hx]; decide
    · rw [insOps_op bL aL.length 0 x hx]; decide
  have hmain : groupHunksGo (diffOps aL bL) (diffOps aL bL).length 0 none [] =
      [⟨0, aL.length, 0, bL.length,
        aL.map (fun l => "-" ++ l) ++ bL.map (fun l => "+" ++ l)⟩] := by
    rw [hops]
    cases aL with
    | nil =>
      have hbL : bL ≠ [] := by
        rcases hne with h | h
        · exact absurd rfl h
        · exact h
      cases bL with
      | nil => exact absurd rfl hbL
      | cons y ys =>
        simp only [delOps, List.nil_append, List.length_nil] at hall ⊢
        rw [show insOps (y :: ys) 0 0 = (⟨'+', y, 0, 0⟩ : DiffOp) :: insOps ys 0 1 from
          rfl] at hall ⊢
        rw [groupHunksGo_all_change _ _ hall]
        rw [show (⟨'+', y, 0, 0⟩ : DiffOp) :: insOps ys 0 1 = insOps (y :: ys) 0 0 from rfl]
        rw [foldl_addChangeLine_ins]
        simp
    | cons a as =>
      rw [show delOps (a :: as) 0 0 = (⟨'-', a, 0, 0⟩ : DiffOp) :: delOps as 1 0 from
        rfl] at hall ⊢
      rw [show ((⟨'-', a, 0, 0⟩ : DiffOp) :: delOps as 1 0) ++
          insOps bL (a :: as).length 0 =
        (⟨'-', a, 0, 0⟩ : DiffOp) :: (delOps as 1 0 ++ insOps bL (a :: as).length 0) from
        rfl] at hall ⊢
      rw [groupHunksGo_all_change _ _ hall]
      rw [List.foldl_cons]
      rw [show addChangeLine ⟨0, 0, 0, 0, []⟩ (⟨'-', a, 0, 0⟩ : DiffOp) =
        (⟨0, 1, 0, 0, ["-" ++ a]⟩ : DiffHunk) from rfl]
      rw [List.foldl_append, foldl_addChangeLine_del, foldl_addChangeLine_ins]
      simp [List.map_cons, List.append_assoc]
      omega
  show groupHunksGo (diffOps aL bL) (diffOps aL bL).length 0 none [] = _
  exact hmain

theorem strFoldAppend_data : ∀ (ls : List String) (acc : String),
    (List.foldl (fun r s => r ++ s) acc ls).data = acc.data ++ (ls.map String.data).flatten := by
  intro ls
  induction ls with
  | nil => intro acc; simp
  | cons l t ih =>
    intro acc
    simp only [List.foldl_cons, List.map_cons, List.flatten_cons]
    rw [ih (acc ++ l), strData_append]
    simp [List.append_assoc]

theorem strJoin_newline_data (ls : List String) :
    (String.join (ls.map (fun l => l ++ "\n"))).data =
      (ls.map (fun l => l.data ++ ['\n'])).flatten := by
  show (List.foldl (fun r s => r ++ s) "" (ls.map (fun l => l ++ "\n"))).data = _
  rw [strFoldAppend_data]
  simp only [List.map_map]
  have : (String.data ∘ fun l => l ++ "\n") = fun l => l.data ++ ['\n'] := by
    funext l
    exact strData_append l "\n"
  rw [this]
  simp

/-- Every line produced by `splitLines` is newline-free. -/
theorem splitLines_no_newline (A : String) : ∀ l ∈ splitLines A, ('\n' : Char) ∉ l.data := by
  intro l hl
  unfold splitLines at hl
  by_cases hA : A = ""
  · rw [if_pos hA] at hl
    simp at hl
  · rw [if_neg hA] at hl
    obtain ⟨piece, hp, rfl⟩ := List.mem_map.mp hl
    exact splitOnChar_pieces '\n' A.data piece hp

/-- The hunk header rendered for the disjoint case is newline-free. -/
theorem header_no_newline (m n : Nat) :
    ('\n' : Char) ∉ ("@@ -1," ++ natRepr m ++ " +1," ++ natRepr n ++ " @@").data := by
  have hdata : ("@@ -1," ++ natRepr m ++ " +1," ++ natRepr n ++ " @@").data =
      "@@ -1,".data ++ ((natRepr m).data ++ (" +1,".data ++ ((natRepr n).data ++
        " @@".data))) := by
    simp [strData_append]
  rw [hdata]
  intro hmem
  rcases List.mem_append.mp hmem with h | h
  · simp at h
  rcases List.mem_append.mp h with h | h
  · exact isDigit_ne '\n' (natRepr_isDigit m '\n' h) '\n' (by decide) rfl
  rcases List.mem_append.mp h with h | h
  · simp at h
  rcases List.mem_append.mp h with h | h
  · exact isDigit_ne '\n' (natRepr_isDigit n '\n' h) '\n' (by decide) rfl
  · simp at h

/-- The rendered disjoint diff text, as the flattening of its newline
terminated lines. -/
theorem createUnifiedDiff_disjoint_data (A B : String)
    (hdisj : ∀ x ∈ splitLines A, x ∉ splitLines B)
    (hne : splitLines A ≠ [] ∨ splitLines B ≠ []) :
    (createUnifiedDiff "file" A B).data =
      ((["--- a/file", "+++ b/file",
          "@@ -1," ++ natRepr (splitLines A).length ++ " +1," ++
            natRepr (splitLines B).length ++ " @@"] ++
        ((splitLines A).map (fun l => "-" ++ l) ++
          (splitLines B).map (fun l => "+" ++ l))).map
          (fun l => l.data ++ ['\n'])).flatten := by
  have hch := computeDiffHunks_disjoint (splitLines A) (splitLines B) hdisj hne
  simp only [createUnifiedDiff, hch]
  rw [if_neg (by simp)]
  simp only [List.map_cons, List.map_nil]
  rw [show String.join [("@@ -" ++ natRepr (0 + 1) ++ "," ++ natRepr (splitLines A).length ++
      " +" ++ natRepr (0 + 1) ++ "," ++ natRepr (splitLines B).length ++ " @@\n" ++
      String.join ((((splitLines A).map (fun l => "-" ++ l) ++
        (splitLines B).map (fun l => "+" ++ l)).map (fun line => line ++ "\n"))))] =
    "@@ -" ++ natRepr (0 + 1) ++ "," ++ natRepr (splitLines A).length ++
      " +" ++ natRepr (0 + 1) ++ "," ++ natRepr (splitLines B).length ++ " @@\n" ++
      String.join ((((splitLines A).map (fun l => "-" ++ l) ++
        (splitLines B).map (fun l => "+" ++ l)).map (fun line => line ++ "\n"))) from rfl]
  simp only [strData_append, List.append_assoc]
  rw [strJoin_newline_data ((splitLines A).map (fun l => "-" ++ l) ++
    (splitLines B).map (fun l => "+" ++ l))]
  simp only [strData_append, List.map_append, List.flatten_append, List.map_cons,
    List.flatten_cons, List.map_nil, List.flatten_nil, List.nil_append, List.append_assoc]
  rfl

theorem isPrefixOf_cons_cons (a b : Char) (as bs : List Char) :
    List.isPrefixOf (a :: as) (b :: bs) = ((a == b) && List.isPrefixOf as bs) := rfl

theorem isPrefixOf_append_of_length_le (p : List Char) : ∀ (h1 rest : List Char),
    p.length ≤ h1.length → List.isPrefixOf p (h1 ++ rest) = List.isPrefixOf p h1 := by
  induction p with
  | nil => intro h1 rest _; simp [List.isPrefixOf]
  | cons a as ih =>
    intro h1 rest hlen
    cases h1 with
    | nil => simp at hlen
    | cons b t =>
      simp only [List.cons_append, isPrefixOf_cons_cons]
      rw [ih t rest (by simpa using Nat.le_of_succ_le_succ hlen)]

theorem dropWhile_append_of_all (p : Char → Bool) : ∀ (xs ys : List Char),
    (∀ x ∈ xs, p x = true) → (xs ++ ys).dropWhile p = ys.dropWhile p := by
  intro xs
  induction xs with
  | nil => intro ys _; rfl
  | cons x t ih =>
    intro ys h
    simp only [List.cons_append, List.dropWhile_cons]
    rw [if_pos (h x (List.mem_cons_self x t))]
    exact ih ys (fun z hz => h z (List.mem_cons_of_mem _ hz))

/-- The starts-with facts of the disjoint-case hunk header. -/
theorem header_startsWith (m n : Nat) :
    strStartsWith ("@@ -1," ++ natRepr m ++ " +1," ++ natRepr n ++ " @@") "--- " = false ∧
    strStartsWith ("@@ -1," ++ natRepr m ++ " +1," ++ natRepr n ++ " @@") "+++ " = false ∧
    strStartsWith ("@@ -1," ++ natRepr m ++ " +1," ++ natRepr n ++ " @@") "@@" = true := by
  have hdata : ("@@ -1," ++ natRepr m ++ " +1," ++ natRepr n ++ " @@").data =
      "@@ -1,".data ++ ((natRepr m).data ++ (" +1,".data ++ ((natRepr n).data ++
        " @@".data))) := by
    simp [strData_append]
  refine ⟨?_, ?_, ?_⟩ <;>
    · unfold strStartsWith
      rw [hdata, isPrefixOf_append_of_length_le _ _ _ (by decide)]
      decide

/-- Parsing the disjoint-case hunk header extracts new-start 1. -/
theorem parseHunkHeader_disjoint (m n : Nat) :
    parseHunkHeader ("@@ -1," ++ natRepr m ++ " +1," ++ natRepr n ++ " @@") = 1 := by
  have hdata : ("@@ -1," ++ natRepr m ++ " +1," ++ natRepr n ++ " @@").data =
      "@@ -1,".data ++ ((natRepr m).data ++ (" +1,".data ++ ((natRepr n).data ++
        " @@".data))) := by
    simp [strData_append]
  unfold parseHunkHeader
  rw [hdata]
  rw [dropWhile_append_of_all _ "@@ -1,".data _ (by decide)]
  rw [dropWhile_append_of_all _ (natRepr m).data _ (by
    intro c hc
    have hd := natRepr_isDigit m c hc
    simp only [decide_eq_true_eq]
    exact isDigit_ne c hd '+' (by decide))]
  rw [show (" +1,".data ++ ((natRepr n).data ++ " @@".data)) =
    ' ' :: '+' :: '1' :: ',' :: ((natRepr n).data ++ " @@".data) from rfl]
  rw [List.dropWhile_cons, if_pos (by decide)]
  rw [List.dropWhile_cons, if_neg (by decide)]
  simp only
  rw [show List.takeWhile (fun c => decide (c ≠ ',')) ('1' :: ',' ::
      ((natRepr n).data ++ " @@".data)) = ['1'] from by
    rw [List.takeWhile_cons, if_pos (by decide), List.takeWhile_cons, if_neg (by decide)]]
  decide

/-- Condition bundle for a removed line in the parser. -/
theorem minus_line_conds (la : String) (h : strStartsWith la "-- " = false) :
    strStartsWith ("-" ++ la) "--- " = false ∧ strStartsWith ("-" ++ la) "+++ " = false ∧
    strStartsWith ("-" ++ la) "@@" = false ∧ strStartsWith ("-" ++ la) "-" = true := by
  have hdata : ("-" ++ la).data = '-' :: la.data := rfl
  refine ⟨?_, ?_, ?_, ?_⟩
  · unfold strStartsWith at h ⊢
    rw [hdata, show ("--- " : String).data = '-' :: "-- ".data from rfl, isPrefixOf_cons_cons]
    simp [h]
  · unfold strStartsWith
    rw [hdata, show ("+++ " : String).data = '+' :: "++ ".data from rfl, isPrefixOf_cons_cons]
    rw [show (('+' : Char) == '-') = false from by decide]
    simp
  · unfold strStartsWith
    rw [hdata, show ("@@" : String).data = '@' :: "@".data from rfl, isPrefixOf_cons_cons]
    rw [show (('@' : Char) == '-') = false from by decide]
    simp
  · unfold strStartsWith
    rw [hdata, show ("-" : String).data = '-' :: ([] : List Char) from rfl, isPrefixOf_cons_cons]
    simp [List.isPrefixOf]

/-- Condition bundle for an added line in the parser. -/
theorem plus_line_conds (lb : String) (h : strStartsWith lb "++ " = false) :
    strStartsWith ("+" ++ lb) "--- " = false ∧ strStartsWith ("+" ++ lb) "+++ " = false ∧
    strStartsWith ("+" ++ lb) "@@" = false ∧ strStartsWith ("+" ++ lb) "+" = true := by
  have hdata : ("+" ++ lb).data = '+' :: lb.data := rfl
  refine ⟨?_, ?_, ?_, ?_⟩
  · unfold strStartsWith
    rw [hdata, show ("--- " : String).data = '-' :: "-- ".data from rfl, isPrefixOf_cons_cons]
    rw [show (('-' : Char) == '+') = false from by decide]
    simp
  · unfold strStartsWith at h ⊢
    rw [hdata, show ("+++ " : String).data = '+' :: "++ ".data from rfl, isPrefixOf_cons_cons]
    simp [h]
  · unfold strStartsWith
    rw [hdata, show ("@@" : String).data = '@' :: "@".data from rfl, isPrefixOf_cons_cons]
    rw [show (('@' : Char) == '+') = false from by decide]
    simp
  · unfold strStartsWith
    rw [hdata, show ("+" : String).data = '+' :: ([] : List Char) from rfl, isPrefixOf_cons_cons]
    simp [List.isPrefixOf]

theorem parseDiffStep_first :
    parseDiffStep ⟨[], none, none⟩ "--- a/file" = ⟨[], some ⟨"a/file", "", []⟩, none⟩ := rfl

theorem parseDiffStep_second :
    parseDiffStep ⟨[], some ⟨"a/file", "", []⟩, none⟩ "+++ b/file" =
      ⟨[], some ⟨"a/file", "b/file", []⟩, none⟩ := rfl

theorem parseDiffStep_header (hdr : String) (h1 : strStartsWith hdr "--- " = false)
    (h2 : strStartsWith hdr "+++ " = false) (h3 : strStartsWith hdr "@@" = true)
    (hp : parseHunkHeader hdr = 1) (ps : List ToolsDiffPatch) (pat : ToolsDiffPatch) :
    parseDiffStep ⟨ps, some pat, none⟩ hdr = ⟨ps, some pat, some ⟨1, []⟩⟩ := by
  unfold parseDiffStep
  rw [if_neg (by simp [h1])]
  rw [if_neg (by simp [h2])]
  rw [if_pos (by simp [h3])]
  rw [hp]

theorem parseDiffStep_content (lb : String) (h1 : strStartsWith lb "--- " = false)
    (h2 : strStartsWith lb "+++ " = false) (h3 : strStartsWith lb "@@" = false)
    (h4 : strStartsWith lb "+" = true ∨ strStartsWith lb "-" = true)
    (ps : List ToolsDiffPatch) (pat : ToolsDiffPatch) (ns : Nat) (ls : List String) :
    parseDiffStep ⟨ps, some pat, some ⟨ns, ls⟩⟩ lb =
      ⟨ps, some pat, some ⟨ns, ls ++ [lb]⟩⟩ := by
  unfold parseDiffStep
  rw [if_neg (by simp [h1]), if_neg (by simp [h2]), if_neg (by simp [h3])]
  rcases h4 with h4 | h4 <;> simp [h4]

theorem parseDiffStep_empty_line (ps : List ToolsDiffPatch) (pat : ToolsDiffPatch)
    (h : ToolsDiffHunk) :
    parseDiffStep ⟨ps, some pat, some h⟩ "" = ⟨ps, some pat, some h⟩ := by
  unfold parseDiffStep
  rw [if_neg (by decide)]
  rw [if_neg (fun hc => absurd hc.1 (by decide))]
  rw [if_neg (fun hc => absurd hc.1 (by decide))]
  simp only
  rw [if_neg (by decide)]

theorem parseDiffStep_fold_content : ∀ (body : List String),
    (∀ lb ∈ body, strStartsWith lb "--- " = false ∧ strStartsWith lb "+++ " = false ∧
      strStartsWith lb "@@" = false ∧
      (strStartsWith lb "+" = true ∨ strStartsWith lb "-" = true)) →
    ∀ (ps : List ToolsDiffPatch) (pat : ToolsDiffPatch) (ns : Nat) (ls : List String),
      body.foldl parseDiffStep ⟨ps, some pat, some ⟨ns, ls⟩⟩ =
        ⟨ps, some pat, some ⟨ns, ls ++ body⟩⟩ := by
  intro body
  induction body with
  | nil => intro _ ps pat ns ls; simp
  | cons lb rest ih =>
    intro hb ps pat ns ls
    obtain ⟨h1, h2, h3, h4⟩ := hb lb (List.mem_cons_self lb rest)
    simp only [List.foldl_cons]
    rw [parseDiffStep_content lb h1 h2 h3 h4 ps pat ns ls]
    rw [ih (fun x hx => hb x (List.mem_cons_of_mem _ hx)) ps pat ns (ls ++ [lb])]
    simp

/-- Parsing any text whose data renders a `--- a/file`/`+++ b/file` pair, a
single `@@` header parsing to 1, and tagged content lines (each
newline-terminated) yields one patch with one hunk holding the tagged
lines. -/
theorem parseUnifiedDiff_of_rendered (hdr : String) (tagged : List String)
    (hnl : ∀ l ∈ ("--- a/file" :: "+++ b/file" :: hdr :: tagged), ('\n' : Char) ∉ l.data)
    (h1 : strStartsWith hdr "--- " = false) (h2 : strStartsWith hdr "+++ " = false)
    (h3 : strStartsWith hdr "@@" = true) (hp : parseHunkHeader hdr = 1)
    (htag : ∀ lb ∈ tagged, strStartsWith lb "--- " = false ∧
      strStartsWith lb "+++ " = false ∧ strStartsWith lb "@@" = false ∧
      (strStartsWith lb "+" = true ∨ strStartsWith lb "-" = true))
    (T : String)
    (hT : T.data = (("--- a/file" :: "+++ b/file" :: hdr :: tagged).map
      (fun l => l.data ++ ['\n'])).flatten) :
    parseUnifiedDiff T = [⟨"a/file", "b/file", [⟨1, tagged⟩]⟩] := by
  have hnl2 : ∀ l ∈ ("--- a/file" :: "+++ b/file" :: hdr :: tagged).map String.data,
      ('\n' : Char) ∉ l := by
    intro l hl
    obtain ⟨l0, hl0, rfl⟩ := List.mem_map.mp hl
    exact hnl l0 hl0
  have hdouble : (("--- a/file" :: "+++ b/file" :: hdr :: tagged).map
      (fun l => l.data ++ ['\n'])) =
    ((("--- a/file" :: "+++ b/file" :: hdr :: tagged).map String.data).map
      (fun l => l ++ ['\n'])) := by
    rw [List.map_map]
    rfl
  have hid : (("--- a/file" :: "+++ b/file" :: hdr :: tagged).map
      ((fun l => (⟨l⟩ : String)) ∘ String.data)) =
      ("--- a/file" :: "+++ b/file" :: hdr :: tagged) := by
    apply List.map_id''
    intro x
    rfl
  have hmk : ((("--- a/file" :: "+++ b/file" :: hdr :: tagged).map String.data ++ [[]]).map
      (fun l => (⟨l⟩ : String))) =
      "--- a/file" :: "+++ b/file" :: hdr :: (tagged ++ [""]) := by
    rw [List.map_append, List.map_map, hid]
    rfl
  have hfold : ("--- a/file" :: "+++ b/file" :: hdr :: (tagged ++ [""])).foldl
      parseDiffStep ⟨[], none, none⟩ =
      ⟨[], some ⟨"a/file", "b/file", []⟩, some ⟨1, tagged⟩⟩ := by
    rw [List.foldl_cons, parseDiffStep_first, List.foldl_cons, parseDiffStep_second,
      List.foldl_cons, parseDiffStep_header hdr h1 h2 h3 hp]
    rw [List.foldl_append]
    rw [parseDiffStep_fold_content _ htag [] ⟨"a/file", "b/file", []⟩ 1 []]
    rw [List.foldl_cons, parseDiffStep_empty_line, List.foldl_nil]
    simp
  simp only [parseUnifiedDiff]
  rw [hT, hdouble, splitOnChar_joined '\n' _ hnl2, hmk, hfold]
  rfl

/-- Parsing the disjoint-case diff text recovers one patch with one hunk
holding exactly the tagged removal and addition lines. -/
theorem parseUnifiedDiff_disjoint (A B : String)
    (hdisj : ∀ x ∈ splitLines A, x ∉ splitLines B)
    (hne : splitLines A ≠ [] ∨ splitLines B ≠ [])
    (hA : ∀ la ∈ splitLines A, strStartsWith la "-- " = false)
    (hB : ∀ lb ∈ splitLines B, strStartsWith lb "++ " = false) :
    parseUnifiedDiff (createUnifiedDiff "file" A B) =
      [⟨"a/file", "b/file",
        [⟨1, (splitLines A).map (fun l => "-" ++ l) ++
          (splitLines B).map (fun l => "+" ++ l)⟩]⟩] := by
  have htag : ∀ lb ∈ (splitLines A).map (fun l => "-" ++ l) ++
      (splitLines B).map (fun l => "+" ++ l),
      strStartsWith lb "--- " = false ∧ strStartsWith lb "+++ " = false ∧
      strStartsWith lb "@@" = false ∧
      (strStartsWith lb "+" = true ∨ strStartsWith lb "-" = true) := by
    intro lb hlb
    rcases List.mem_append.mp hlb with hlb | hlb
    · obtain ⟨la, hla, rfl⟩ := List.mem_map.mp hlb
      obtain ⟨c1, c2, c3, c4⟩ := minus_line_conds la (hA la hla)
      exact ⟨c1, c2, c3, Or.inr c4⟩
    · obtain ⟨la, hla, rfl⟩ := List.mem_map.mp hlb
      obtain ⟨c1, c2, c3, c4⟩ := plus_line_conds la (hB la hla)
      exact ⟨c1, c2, c3, Or.inl c4⟩
  obtain ⟨h1, h2, h3⟩ := header_startsWith (splitLines A).length (splitLines B).length
  have hnl : ∀ l ∈ ("--- a/file" :: "+++ b/file" ::
      ("@@ -1," ++ natRepr (splitLines A).length ++ " +1," ++
        natRepr (splitLines B).length ++ " @@") ::
      ((splitLines A).map (fun l => "-" ++ l) ++ (splitLines B).map (fun l => "+" ++ l))),
      ('\n' : Char) ∉ l.data := by
    intro l hl
    rcases List.mem_cons.mp hl with rfl | hl
    · decide
    rcases List.mem_cons.mp hl with rfl | hl
    · decide
    rcases List.mem_cons.mp hl with rfl | hl
    · exact header_no_newline _ _
    rcases List.mem_append.mp hl with hl | hl
    · obtain ⟨la, hla, rfl⟩ := List.mem_map.mp hl
      intro hmem
      rcases List.mem_cons.mp hmem with he | hmem
      · cases he
      · exact splitLines_no_newline A la hla hmem
    · obtain ⟨la, hla, rfl⟩ := List.mem_map.mp hl
      intro hmem
      rcases List.mem_cons.mp hmem with he | hmem
      · cases he
      · exact splitLines_no_newline B la hla hmem
  exact parseUnifiedDiff_of_rendered _ _ hnl h1 h2 h3
    (parseHunkHeader_disjoint (splitLines A).length (splitLines B).length) htag
    (createUnifiedDiff "file" A B)
    (by rw [createUnifiedDiff_disjoint_data A B hdisj hne]; rfl)

theorem startsWith_dash_self (la : String) : strStartsWith ("-" ++ la) "-" = true := by
  unfold strStartsWith
  rw [show ("-" ++ la).data = '-' :: la.data from rfl,
    show ("-" : String).data = '-' :: ([] : List Char) from rfl, isPrefixOf_cons_cons]
  simp [List.isPrefixOf]

theorem startsWith_plus_self (lb : String) : strStartsWith ("+" ++ lb) "+" = true := by
  unfold strStartsWith
  rw [show ("+" ++ lb).data = '+' :: lb.data from rfl,
    show ("+" : String).data = '+' :: ([] : List Char) from rfl, isPrefixOf_cons_cons]
  simp [List.isPrefixOf]

theorem startsWith_plus_dash (lb : String) : strStartsWith ("+" ++ lb) "-" = false := by
  unfold strStartsWith
  rw [show ("+" ++ lb).data = '+' :: lb.data from rfl,
    show ("-" : String).data = '-' :: ([] : List Char) from rfl, isPrefixOf_cons_cons]
  rw [show (('-' : Char) == '+') = false from by decide]
  simp

theorem startsWith_dash_plus (la : String) : strStartsWith ("-" ++ la) "+" = false := by
  unfold strStartsWith
  rw [show ("-" ++ la).data = '-' :: la.data from rfl,
    show ("+" : String).data = '+' :: ([] : List Char) from rfl, isPrefixOf_cons_cons]
  rw [show (('+' : Char) == '-') = false from by decide]
  simp

theorem hunkOldLines_cons_minus (la : String) (rest : List String) :
    hunkOldLines (("-" ++ la) :: rest) = la :: hunkOldLines rest := by
  unfold hunkOldLines
  rw [List.filterMap_cons]
  simp [startsWith_dash_self, show strDrop ("-" ++ la) 1 = la from rfl]

theorem hunkOldLines_cons_plus (lb : String) (rest : List String) :
    hunkOldLines (("+" ++ lb) :: rest) = hunkOldLines rest := by
  unfold hunkOldLines
  rw [List.filterMap_cons]
  simp [startsWith_plus_dash, startsWith_plus_self]

theorem hunkNewLines_cons_minus (la : String) (rest : List String) :
    hunkNewLines (("-" ++ la) :: rest) = hunkNewLines rest := by
  unfold hunkNewLines
  rw [List.filterMap_cons]
  simp [startsWith_dash_self]

theorem hunkNewLines_cons_plus (lb : String) (rest : List String) :
    hunkNewLines (("+" ++ lb) :: rest) = lb :: hunkNewLines rest := by
  unfold hunkNewLines
  rw [List.filterMap_cons]
  simp [startsWith_plus_dash, startsWith_plus_self, show strDrop ("+" ++ lb) 1 = lb from rfl]

theorem hunkOldLines_tagged (as bs : List String) :
    hunkOldLines (as.map (fun l => "-" ++ l) ++ bs.map (fun l => "+" ++ l)) = as := by
  induction as with
  | nil =>
    simp only [List.map_nil, List.nil_append]
    induction bs with
    | nil => rfl
    | cons lb rest ih =>
      simp only [List.map_cons]
      rw [hunkOldLines_cons_plus]
      exact ih
  | cons la rest ih =>
    simp only [List.map_cons, List.cons_append]
    rw [hunkOldLines_cons_minus]
    rw [ih]

theorem hunkNewLines_tagged (as bs : List String) :
    hunkNewLines (as.map (fun l => "-" ++ l) ++ bs.map (fun l => "+" ++ l)) = bs := by
  induction as with
  | nil =>
    simp only [List.map_nil, List.nil_append]
    induction bs with
    | nil => rfl
    | cons lb rest ih =>
      simp only [List.map_cons]
      rw [hunkNewLines_cons_plus]
      rw [ih]
  | cons la rest ih =>
    simp only [List.map_cons, List.cons_append]
    rw [hunkNewLines_cons_minus]
    exact ih

/-- Counterexample for C3: for A = "1\n2\n3\n4\n5" and B with line "6"
appended, the parsed diff's only hunk carries three context lines and the
added "6"; joining its new-side lines gives "3\n4\n5\n6", not B, and its
old-side lines give "3\n4\n5", not A — line "1" of both texts appears in no
hunk line at all, so the hunks cannot reconstruct A or B. -/
theorem diff_parse_roundtrip_cex :
    parseUnifiedDiff (createUnifiedDiff "file" "1\n2\n3\n4\n5" "1\n2\n3\n4\n5\n6") =
      [⟨"a/file", "b/file", [⟨3, [" 3", " 4", " 5", "+6"]⟩]⟩] ∧
    strJoin "\n" (hunkNewLines [" 3", " 4", " 5", "+6"]) = "3\n4\n5\n6" ∧
    ("3\n4\n5\n6" : String) ≠ "1\n2\n3\n4\n5\n6" ∧
    strJoin "\n" (hunkOldLines [" 3", " 4", " 5", "+6"]) = "3\n4\n5" ∧
    ("3\n4\n5" : String) ≠ "1\n2\n3\n4\n5" ∧
    ("1" ∈ splitLines "1\n2\n3\n4\n5\n6") ∧
    ("1" ∉ hunkNewLines [" 3", " 4", " 5", "+6"]) ∧
    ("1" ∉ hunkOldLines [" 3", " 4", " 5", "+6"]) := by
  decide

/-- C3 (amended): when A and B share no common line, neither line set is
degenerate for the parser (no removed line of A starts with "-- ", no added
line of B starts with "++ "), and A, B are not both empty, parsing the
computed diff recovers exactly one patch whose single hunk removes all of
A's lines and adds all of B's lines, and joining those removed/added lines
reconstructs A and B; for identical texts the computed diff is empty and
parses to no patches. -/
theorem diff_parse_roundtrip (A B : String)
    (hdisj : ∀ la ∈ splitLines A, la ∉ splitLines B)
    (hboth : ¬ (A = "" ∧ B = ""))
    (hA : ∀ la ∈ splitLines A, strStartsWith la "-- " = false)
    (hB : ∀ lb ∈ splitLines B, strStartsWith lb "++ " = false) :
    parseUnifiedDiff (createUnifiedDiff "file" A B) =
      [⟨"a/file", "b/file", [⟨1, (splitLines A).map (fun l => "-" ++ l) ++
        (splitLines B).map (fun l => "+" ++ l)⟩]⟩] ∧
    strJoin "\n" (hunkOldLines ((splitLines A).map (fun l => "-" ++ l) ++
      (splitLines B).map (fun l => "+" ++ l))) = A ∧
    strJoin "\n" (hunkNewLines ((splitLines A).map (fun l => "-" ++ l) ++
      (splitLines B).map (fun l => "+" ++ l))) = B ∧
    (∀ X : String, createUnifiedDiff "file" X X = "" ∧
      parseUnifiedDiff (createUnifiedDiff "file" X X) = []) := by
  have hne : splitLines A ≠ [] ∨ splitLines B ≠ [] := by
    by_cases hA0 : A = ""
    · right
      have hB0 : B ≠ "" := fun h => hboth ⟨hA0, h⟩
      unfold splitLines
      rw [if_neg hB0]
      intro hmap
      exact splitOnChar_ne_nil '\n' B.data (List.map_eq_nil_iff.mp hmap)
    · left
      unfold splitLines
      rw [if_neg hA0]
      intro hmap
      exact splitOnChar_ne_nil '\n' A.data (List.map_eq_nil_iff.mp hmap)
  refine ⟨parseUnifiedDiff_disjoint A B hdisj hne hA hB, ?_, ?_, ?_⟩
  · rw [hunkOldLines_tagged, strJoin_splitLines]
  · rw [hunkNewLines_tagged, strJoin_splitLines]
  · intro X
    refine ⟨createUnifiedDiff_self "file" X, ?_⟩
    rw [createUnifiedDiff_self "file" X]
    decide

/-- Witness for C3: the single-line texts "a" and "b" share no line;
parsing their computed diff yields the one-removal one-addition hunk. -/
theorem diff_parse_roundtrip_witness :
    parseUnifiedDiff (createUnifiedDiff "file" "a" "b") =
      [⟨"a/file", "b/file", [⟨1, (splitLines "a").map (fun l => "-" ++ l) ++
        (splitLines "b").map (fun l => "+" ++ l)⟩]⟩] :=
  (diff_parse_roundtrip "a" "b" (by decide) (by decide) (by decide) (by decide)).1

end AcpBridge
